import Mathlib

set_option maxRecDepth 8192

/-!
Verification of the hierarchical document decomposition and lexical-graph
construction pipeline: a shallow embedding of
`doc_proc_extractor.py` (header parsing, hierarchy building, character
chunking) and `neo4j_api.py` (folder-name parsing, graph loading with
merge semantics), together with theorems settling the specification's
claims about them.
-/

namespace DocsToKG

/-! ### Character and string utilities

Python's `str.strip`, `str.splitlines(keepends=True)` and the `\s`
character class, as used by `doc_proc_extractor.py`.
-/

/-- Python's whitespace class `\s`: space, tab, newline, carriage return,
vertical tab and form feed. -/
def isPySpace (c : Char) : Bool :=
  c == ' ' || c == '\t' || c == '\n' || c == '\r' ||
  c == Char.ofNat 11 || c == Char.ofNat 12

/-- Python `str.strip()` on a character list: drop leading and trailing
whitespace. -/
def pyStripL (l : List Char) : List Char :=
  ((l.dropWhile isPySpace).reverse.dropWhile isPySpace).reverse

/-- Python `str.strip()` on strings. -/
def pyStrip (s : String) : String :=
  String.mk (pyStripL s.toList)

/-- Helper for `splitLinesKeep`: accumulate characters of the current line
(in reverse) until a line terminator. Terminators modelled: `\n`, `\r\n`,
`\r` (the terminators produced by the texts this pipeline processes). -/
def splitLinesKeepGo : List Char → List Char → List (List Char)
  | [], acc => if acc.isEmpty then [] else [acc.reverse]
  | '\r' :: '\n' :: rest, acc => (acc.reverse ++ ['\r', '\n']) :: splitLinesKeepGo rest []
  | '\n' :: rest, acc => (acc.reverse ++ ['\n']) :: splitLinesKeepGo rest []
  | '\r' :: rest, acc => (acc.reverse ++ ['\r']) :: splitLinesKeepGo rest []
  | c :: rest, acc => splitLinesKeepGo rest (c :: acc)

/-- Python `text.splitlines(True)`: split into lines keeping the line
terminators. -/
def splitLinesKeep (cs : List Char) : List (List Char) :=
  splitLinesKeepGo cs []

/-- Python `str.rstrip("\n")`: drop trailing newline characters only. -/
def rstripNl (cs : List Char) : List Char :=
  (cs.reverse.dropWhile (fun c => c == '\n')).reverse

/-- The prefix of the text before the first position matched by the
regular expression `(?m)^#+` — that is, before the first line whose first
character is a hash. The boolean argument records whether the current
position is at the start of a line (`^` in multiline mode matches at the
start of the text and right after each newline). -/
def textBeforeHash : List Char → Bool → List Char
  | [], _ => []
  | c :: rest, atStart =>
    if atStart && c == '#' then []
    else c :: textBeforeHash rest (c == '\n')

/-- `extract_text_before_heading` from `extract_hierarchy`
(doc_proc_extractor.py): the text up to the first heading line, with
trailing newlines stripped (`text[:match.start()].rstrip('\n')`). -/
def extractTextBeforeHeading (cs : List Char) : List Char :=
  rstripNl (textBeforeHash cs true)

/-! ### Header recognition

`extract_hierarchy` recognizes headers with
`header_pattern = re.compile(r"^(#+)\s+(.*)")` and `header_pattern.match(line)`.
The match is anchored at the start of the line: there is no allowance for
leading whitespace, and the captured text `(.*)` may be empty.
-/

/-- The result of `header_pattern.match(line)` for
`header_pattern = r"^(#+)\s+(.*)"`: `none` when the line does not match,
otherwise the header level (the length of the maximal leading run of `#`)
together with the text captured by `(.*)` (everything after the maximal
whitespace run following the hashes, up to but excluding a newline).
The maximal runs are what Python's greedy `#+` and `\s+` match, and no
backtracking can succeed where the maximal runs fail because `(.*)`
always matches. -/
def headerMatch (line : List Char) : Option (Nat × List Char) :=
  let hashes := line.takeWhile (fun c => c == '#')
  let rest := line.dropWhile (fun c => c == '#')
  match rest with
  | [] => none
  | c :: _ =>
    if hashes.isEmpty then none
    else if isPySpace c then
      some (hashes.length, (rest.dropWhile isPySpace).takeWhile (fun c2 => c2 != '\n'))
    else none

/-- Whether a line is recognized as a header by `extract_hierarchy`. -/
def isHeaderLine (line : List Char) : Bool :=
  (headerMatch line).isSome

/-- The levels of the recognized header lines of an input line sequence,
in order. -/
def headerLevels (lines : List (List Char)) : List Nat :=
  lines.filterMap (fun l => (headerMatch l).map Prod.fst)

/-! ### The counter loop of `extract_hierarchy`

On each header of level `level` the source runs:

    while len(counters) < level: counters.append(0)
    while len(counters) > level: counters.pop()
    counters[level-1] += 1
    for i in range(level, len(counters)): counters[i] = 0

and the new section's order is `counters[level-1]`.
-/

/-- One step of the counter update of `extract_hierarchy`: pad the counter
array with zeros up to `level`, truncate it down to `level`, increment the
entry at index `level - 1`, and zero every deeper entry (a no-op, since
after padding and truncation the array has length exactly `level`). -/
def stepCounters (counters : List Nat) (level : Nat) : List Nat :=
  let padded := counters ++ List.replicate (level - counters.length) 0
  let trimmed := padded.take level
  let bumped := trimmed.set (level - 1) (trimmed.getD (level - 1) 0 + 1)
  bumped.mapIdx (fun i x => if level ≤ i then 0 else x)

/-- The counter array after processing a sequence of header levels,
starting from the empty array. -/
def foldCounters (levels : List Nat) : List Nat :=
  levels.foldl stepCounters []

/-- The `order` values (`counters[level-1]` after each update) emitted
while the loop processes a sequence of header levels, starting from the
given counter array. -/
def headerOrdersFrom (counters : List Nat) : List Nat → List Nat
  | [] => []
  | L :: rest =>
    let c := stepCounters counters L
    c.getD (L - 1) 0 :: headerOrdersFrom c rest

/-- The `order` values (`counters[level-1]` after the update) assigned to a
sequence of headers given by their levels. -/
def headerOrders (levels : List Nat) : List Nat :=
  headerOrdersFrom [] levels

/-! ### Folder names

The Hierarchy Builder writes each section into a folder named by the
f-string composition of level, order and title; the Graph Loader parses
folder names back with `parse_folder_name` (neo4j_api.py), using the
regular expression matching an `l`, digits, `-n`, digits, `-` and a
nonempty remainder, and extracts an optional leading dotted number from
the name.
-/

/-- The folder-name composition of `extract_hierarchy`:
the f-string of an `l`, the value `level - 1`, `-n`, the order and `-`
followed by the title. -/
def mkFolderName (level order : Nat) (title : String) : String :=
  "l" ++ toString (level - 1) ++ "-n" ++ toString order ++ "-" ++ title

/-- Decimal digits to a natural number, as Python's `int` on a digit
string. -/
def digitsToNat (ds : List Char) : Nat :=
  ds.foldl (fun n c => n * 10 + (c.toNat - '0'.toNat)) 0

/-- The semantics of a final `(.+)$` group in a Python non-multiline
regular expression: it captures the remainder when the remainder is a
nonempty run of non-newline characters, optionally followed by one final
newline (Python's `$` also matches just before a trailing newline). -/
def matchDotPlusEnd (name : List Char) : Option (List Char) :=
  let stripped := if name.getLast? == some '\n' then name.dropLast else name
  if stripped.isEmpty || stripped.any (fun c => c == '\n') then none
  else some stripped

/-- The anchored match of the pattern of `parse_folder_name`: an `l`, one
or more digits (the level), `-n`, one or more digits (the order), `-`, and
a nonempty captured name. Each greedy digit run is maximal; no shorter run
can succeed where the maximal one fails, because a shorter run leaves a
digit where the literal `-` is required. -/
def parseFolderCore (cs : List Char) : Option (Nat × Nat × List Char) :=
  match cs with
  | 'l' :: rest =>
    let ds1 := rest.takeWhile Char.isDigit
    let r1 := rest.dropWhile Char.isDigit
    if ds1.isEmpty then none
    else
      match r1 with
      | '-' :: 'n' :: r2 =>
        let ds2 := r2.takeWhile Char.isDigit
        let r3 := r2.dropWhile Char.isDigit
        if ds2.isEmpty then none
        else
          match r3 with
          | '-' :: name =>
            (matchDotPlusEnd name).map (fun nm => (digitsToNat ds1, digitsToNat ds2, nm))
          | _ => none
      | _ => none
  | _ => none

/-- Helper for `numberOf`: having already matched the dotted number `acc`,
extend it greedily with further `.digits` groups and require a whitespace
character right after the match. Python's backtracking tries shorter
prefixes only after the greedy extension fails, and a shorter prefix can
never be rescued because the character following it is then a dot, which
is not whitespace — so only the maximal dotted prefix can succeed. The
fuel argument only bounds the recursion depth; every recursive call
consumes at least two characters, so the caller's fuel never runs out. -/
def numTail (fuel : Nat) (acc : List Char) (l : List Char) : Option (List Char) :=
  match fuel, l with
  | _, [] => none
  | 0, _ => none
  | fuel + 1, c :: rest =>
    if c == '.' then
      let ds := rest.takeWhile Char.isDigit
      if ds.isEmpty then none
      else numTail fuel (acc ++ '.' :: ds) (rest.dropWhile Char.isDigit)
    else if isPySpace c then some acc
    else none

/-- The number extraction of `parse_folder_name`: the regular expression
matching one or more digits, zero or more groups of a dot and digits, and
at least one whitespace character, anchored at the start of the name;
returns the captured dotted number. -/
def numberOf (name : String) : Option String :=
  let cs := name.toList
  let ds := cs.takeWhile Char.isDigit
  if ds.isEmpty then none
  else (numTail (cs.length + 1) ds (cs.dropWhile Char.isDigit)).map String.mk

/-- `parse_folder_name` (neo4j_api.py): on a match, the level, the order,
the captured name and the optional dotted number extracted from the name;
otherwise the quadruple of two `none`s, the unchanged folder name and
`none`. -/
def parseFolderName (folder : String) :
    Option Nat × Option Nat × String × Option String :=
  match parseFolderCore folder.toList with
  | some (lv, od, name) =>
    (some lv, some od, String.mk name, numberOf (String.mk name))
  | none => (none, none, folder, none)

/-! ### The character chunker `shrink_file`

The loop of `shrink_file` (doc_proc_extractor.py):

    start = 0
    while start < len(text):
        end = start + chunk_length
        chunks.append(text[start:end])
        start = end - overlap_size
        if start < 0: break

The loop does not terminate when `overlap_size = chunk_length` (on a
nonempty text the start position stays at 0 forever), so the embedding is
fuel-indexed: `none` means the fuel ran out, which for every fuel value
happens exactly on the non-terminating configurations.
-/

/-- The chunking loop of `shrink_file`, fuel-indexed. The `start`
position is a natural number: it is 0 initially, and the continuation
branch is taken only when the Python value `end - overlap_size` is
nonnegative (the other branch models `if start < 0: break`). -/
def shrinkFuel (text : List Char) (chunkLength overlapSize : Nat) :
    Nat → Nat → Option (List (List Char))
  | 0, _ => none
  | fuel + 1, start =>
    if start < text.length then
      let chunk := (text.drop start).take chunkLength
      if start + chunkLength < overlapSize then
        some [chunk]
      else
        (shrinkFuel text chunkLength overlapSize fuel
            (start + chunkLength - overlapSize)).map (chunk :: ·)
    else
      some []

/-- `shrink_file`'s chunk list for a text, with enough fuel for every
terminating configuration (when `overlap_size < chunk_length` the start
position advances by at least one per iteration, so `length + 1` steps
always suffice). -/
def shrinkFile (text : String) (chunkLength overlapSize : Nat) :
    Option (List String) :=
  (shrinkFuel text.toList chunkLength overlapSize (text.length + 1) 0).map
    (fun cs => cs.map String.mk)

/-! ### The Hierarchy Builder (`extract_hierarchy`)

`extract_hierarchy` walks the lines of the text keeping a stack of
open sections (level and folder path), the counter array, and the content
lines accumulated for the currently open section; it writes one
`content.txt` per section folder, in overwrite mode. Paths are modelled
as lists of path segments (`os.path.join` appends a segment).
-/

/-- The mutable state of the line loop of `extract_hierarchy`: the stack
of open `(level, folder_path)` pairs with the innermost section first
(Python's `stack[-1]` is the head here), the counter array, the content
lines accumulated since the last header, and the file writes performed so
far, in order. -/
structure BState where
  stack : List (Nat × List String)
  counters : List Nat
  current : List String
  writes : List (List String × String)

/-- `write_content` of `extract_hierarchy`: if a section is open, write
the accumulated content lines, joined and stripped, to `content.txt` in
its folder; otherwise do nothing. -/
def writeContent (st : BState) : BState :=
  match st.stack with
  | [] => st
  | (_, p) :: _ =>
    { st with writes := st.writes ++ [(p ++ ["content.txt"], pyStrip (String.join st.current))] }

/-- One iteration of the line loop of `extract_hierarchy`: on a header
line, write the open section's content, reset the accumulator, pop the
stack while the top has level greater than or equal to the new level,
update the counters, compose the folder name from the level, the new
counter value and the stripped title, place the folder under the stack
top (or the output root when the stack is empty), and push it; on any
other line, accumulate the line as content. -/
def builderStep (root : List String) (st : BState) (line : String) : BState :=
  match headerMatch line.toList with
  | some (level, captured) =>
    let st1 := writeContent st
    let title := pyStrip (String.mk captured)
    let stack1 := st1.stack.dropWhile (fun e => level ≤ e.1)
    let counters1 := stepCounters st1.counters level
    let numbered := mkFolderName level (counters1.getD (level - 1) 0) title
    let folder := (match stack1 with
      | [] => root
      | (_, p) :: _ => p) ++ [numbered]
    { stack := (level, folder) :: stack1
      counters := counters1
      current := []
      writes := st1.writes }
  | none => { st with current := st.current ++ [line] }

/-- The ordered list of file writes performed by `extract_hierarchy` on a
text: first the preamble into the root's `content.txt`, then one
`content.txt` per section as the loop closes sections, then the final
`write_content` after the loop. -/
def extractHierarchyWrites (root : List String) (text : String) : List (List String × String) :=
  let lines := (splitLinesKeep text.toList).map String.mk
  let preamble := String.mk (extractTextBeforeHeading text.toList)
  let st0 : BState := ⟨[], [], [], [(root ++ ["content.txt"], preamble)]⟩
  (writeContent (lines.foldl (builderStep root) st0)).writes

/-! ### The graph model

Node identifiers in the source are `generate_id(text)`, the MD5 digest of
a string: either a folder path (structural nodes, the document root) or
the parent node's digest followed by a chunk suffix (chunk nodes). The
digest is modelled as an injective tag on its input — MD5 collisions and
accidental equality of a path string with a digest-plus-suffix string are
outside the model — and path strings are modelled by their segment lists
(`os.path.join` is injective on separator-free segments). -/
inductive NodeId where
  | path (segs : List String)
  | chunkOf (parent : NodeId) (idx : Nat)
deriving DecidableEq, Repr

/-- The properties a node write sets: the `Document` root node, a heading
node (`MERGE (n:label:metaLabel) SET n.name`, plus `n.number` when the
parsed number is present), or a `Chunk` node with its text, embedding and
index. -/
inductive NodeProps where
  | doc (name : String)
  | heading (label : String) (metaLabel : String) (name : String) (number : Option String)
  | chunk (text : String) (embedding : List Float) (index : Nat)

/-- A relationship, keyed by both endpoints and its type. -/
structure GEdge where
  src : NodeId
  dst : NodeId
  typ : String
deriving DecidableEq

/-- One write operation issued to the graph store: a `MERGE`-by-id node
upsert followed by `SET` of its properties, a
`MATCH (a),(b) MERGE (a)-[:type]->(b)` edge merge, or the vector-index
creation issued at the start of `create_lexical_graph`. -/
inductive GraphOp where
  | mergeNode (id : NodeId) (props : NodeProps)
  | mergeEdge (e : GEdge)
  | vectorIndex (dim : Nat) (simFunc : String)

/-- The graph-store state: the nodes as an association list from id to
properties (kept duplicate-free by the upsert), the edge list (kept
duplicate-free by the merge), and the chunk-embedding vector index
configuration. -/
structure GraphState where
  nodes : List (NodeId × NodeProps)
  edges : List GEdge
  indexDim : Option (Nat × String)

/-- The empty graph. -/
def GraphState.empty : GraphState := ⟨[], [], none⟩

/-- Key-value upsert: replace the (first) entry when the key is present,
append the pair otherwise — the effect of `MERGE` on a keyed entity
followed by `SET` of its properties (`MERGE` never creates a second
entity with the same key, so an existing key has exactly one entry). -/
def upsertKV {κ ν : Type} [DecidableEq κ] : List (κ × ν) → κ → ν → List (κ × ν)
  | [], k, v => [(k, v)]
  | e :: rest, k, v => if e.1 == k then (k, v) :: rest else e :: upsertKV rest k v

/-- Key lookup in an association list. -/
def lookupKV {κ ν : Type} [DecidableEq κ] (m : List (κ × ν)) (k : κ) : Option ν :=
  (m.find? (fun e => e.1 == k)).map Prod.snd

/-- Apply one graph write. A node merge upserts by id. An edge merge
first `MATCH`es both endpoints — when either endpoint id is absent the
`MATCH` produces no rows and nothing is written — and then merges the
edge, creating it only if no edge with the same endpoints and type
exists. The index write records the configured dimension and similarity
function. -/
def applyOp (s : GraphState) : GraphOp → GraphState
  | .mergeNode id props => { s with nodes := upsertKV s.nodes id props }
  | .mergeEdge e =>
    if s.nodes.any (fun n => n.1 == e.src) && s.nodes.any (fun n => n.1 == e.dst) then
      if s.edges.contains e then s else { s with edges := s.edges ++ [e] }
    else s
  | .vectorIndex dim f => { s with indexDim := some (dim, f) }

/-- Apply a sequence of graph writes in order. -/
def applyOps (s : GraphState) (ops : List GraphOp) : GraphState :=
  ops.foldl applyOp s

/-! ### The Graph Loader (`create_lexical_graph` and helpers) -/

/-- The id of chunk `idx` under a parent node:
`generate_id(f"(parent digest)_chunk_(idx)")`. -/
def chunkId (parent : NodeId) (idx : Nat) : NodeId :=
  NodeId.chunkOf parent idx

/-- The loop of `process_content_file` over the chunk list, carrying the
enumeration index: for each chunk, compute the embedding — substituting a
zero vector of length 1536 when the provider raises — merge the chunk
node with its text, embedding and index, link the parent to chunk 0 with
`HAS_CHILD`, and link consecutive chunks with `NEXT` (the previous
chunk's id, `chunk_ids[idx-1]`, equals `chunkId parent (idx-1)` by
construction). The embedding provider is the external collaborator,
modelled as a function returning `none` when it raises. -/
def pcfGo (parentId : NodeId) (embed : String → Option (List Float)) :
    Nat → List String → List GraphOp
  | _, [] => []
  | idx, chunkText :: rest =>
    let emb := match embed chunkText with
      | some v => v
      | none => List.replicate 1536 (0.0 : Float)
    let cid := chunkId parentId idx
    ([GraphOp.mergeNode cid (.chunk chunkText emb idx)]
        ++ (if idx = 0 then [GraphOp.mergeEdge ⟨parentId, cid, "HAS_CHILD"⟩] else [])
        ++ (if 0 < idx then [GraphOp.mergeEdge ⟨chunkId parentId (idx - 1), cid, "NEXT"⟩] else []))
      ++ pcfGo parentId embed (idx + 1) rest

/-- `process_content_file` after the external loader and text splitter
have produced the chunk list: the graph writes it issues. An empty chunk
list issues no writes. -/
def processContentFileOps (parentId : NodeId) (chunks : List String)
    (embed : String → Option (List Float)) : List GraphOp :=
  pcfGo parentId embed 0 chunks

/-- The label choice of `process_folder`: `level_labels[level]` when the
level indexes into the configured label table, `H(level+1)` beyond it. -/
def levelLabel (levelLabels : List String) (level : Nat) : String :=
  match levelLabels.get? level with
  | some l => l
  | none => "H" ++ toString (level + 1)

mutual
/-- A directory of the materialized hierarchy: its name, the content of
its `content.txt` if present, and its subdirectories (`DirForest` is the
subdirectory list, a separate inductive so that the traversal is a
mutual structural recursion). -/
inductive DirTree where
  | node (name : String) (content : Option String) (subs : DirForest)
/-- A list of subdirectories. -/
inductive DirForest where
  | nil
  | cons (head : DirTree) (tail : DirForest)
end

def DirTree.name : DirTree → String
  | .node n _ _ => n

def DirTree.content : DirTree → Option String
  | .node _ c _ => c

def DirTree.subs : DirTree → DirForest
  | .node _ _ s => s

/-- Build a subdirectory forest from a list. -/
def DirForest.ofList : List DirTree → DirForest
  | [] => .nil
  | d :: ds => .cons d (DirForest.ofList ds)

/-- The subdirectory forest as a list. -/
def DirForest.toList : DirForest → List DirTree
  | .nil => []
  | .cons d ds => d :: DirForest.toList ds

/-- Lexicographic comparison of character lists by code point — the
order Python's `sorted` uses on strings. -/
def charListLe : List Char → List Char → Bool
  | [], _ => true
  | _ :: _, [] => false
  | a :: as, b :: bs =>
    if a.toNat < b.toNat then true
    else if b.toNat < a.toNat then false
    else charListLe as bs

/-- Lexicographic string comparison by code point. -/
def strLe (a b : String) : Bool :=
  charListLe a.toList b.toList

/-- Stable insertion into a list of name-keyed values, ascending by name:
the new element goes after every existing element whose name is less than
or equal to its own. -/
def partInsert {α : Type} (x : String × α) : List (String × α) → List (String × α)
  | [] => [x]
  | y :: ys => if strLe y.1 x.1 then y :: partInsert x ys else x :: y :: ys

/-- Stable ascending sort of name-keyed values by name. Together with
per-item processing this models `for item in sorted(os.listdir(...))`:
each loop iteration depends only on its own item, so processing the items
and then sorting the name-keyed results is the same as sorting the names
and processing in sorted order (`sorted` is a stable ascending sort). -/
def sortParts {α : Type} : List (String × α) → List (String × α)
  | [] => []
  | x :: xs => partInsert x (sortParts xs)

/-- The static configuration of one `create_lexical_graph` run: the
external text splitter and embedding provider, and the label table. -/
structure LoaderCfg where
  split : String → List String
  embed : String → Option (List Float)
  levelLabels : List String
  metaLabel : String

/-- A record appended to `level_nodes[level]` during traversal:
the level together with the `(order, node_id, name)` triple. -/
abbrev LvEntry := Nat × Nat × NodeId × String

mutual
/-- The traversal of `process_folder`: the loop body for
one directory entry. For a conforming folder name it merges the heading
node, records it for the `NEXT` pass, creates the `HAS_CHILD` edge from
the parent exactly when `parent_level is None or level == parent_level + 1`,
processes the folder's `content.txt` if present, and recurses into the
subdirectories (sorted by name) with itself as parent. For a
non-conforming folder name it contributes nothing: in the source the
recursive call sits inside `if level is not None`, so the subdirectories
of a non-conforming directory are not visited. -/
def processTree (cfg : LoaderCfg) :
    DirTree → List String → NodeId → Option Nat → List GraphOp × List LvEntry
  | .node name content subs, curPath, parentId, parentLevel =>
    match parseFolderName name with
    | (some level, some order, nm, number) =>
      let itemPath := curPath ++ [name]
      let nodeId := NodeId.path itemPath
      let edgeOps := match parentLevel with
        | none => [GraphOp.mergeEdge ⟨parentId, nodeId, "HAS_CHILD"⟩]
        | some pl =>
          if level = pl + 1 then [GraphOp.mergeEdge ⟨parentId, nodeId, "HAS_CHILD"⟩] else []
      let contentOps := match content with
        | some text => processContentFileOps nodeId (cfg.split text) cfg.embed
        | none => []
      let subParts := sortParts (processForest cfg subs itemPath nodeId (some level))
      (GraphOp.mergeNode nodeId
            (.heading (levelLabel cfg.levelLabels level) cfg.metaLabel nm number)
          :: (edgeOps ++ contentOps ++ (subParts.map (fun p => p.2.1)).flatten),
        (level, order, nodeId, nm) :: (subParts.map (fun p => p.2.2)).flatten)
    | _ => ([], [])
/-- The loop of `process_folder` over a directory listing: run the body
on every entry, keyed by entry name for the sort. -/
def processForest (cfg : LoaderCfg) :
    DirForest → List String → NodeId → Option Nat →
      List (String × (List GraphOp × List LvEntry))
  | .nil, _, _, _ => []
  | .cons d rest, curPath, parentId, parentLevel =>
    (d.name, processTree cfg d curPath parentId parentLevel)
      :: processForest cfg rest curPath parentId parentLevel
end

/-- The `HAS_CHILD` edge writes of one conforming directory entry, as in
`process_folder`: present from the parent exactly when
`parent_level is None or level == parent_level + 1`. -/
def edgeOpsOf (pid nid : NodeId) (plvl : Option Nat) (level : Nat) :
    List GraphOp :=
  match plvl with
  | none => [GraphOp.mergeEdge ⟨pid, nid, "HAS_CHILD"⟩]
  | some pl =>
    if level = pl + 1 then [GraphOp.mergeEdge ⟨pid, nid, "HAS_CHILD"⟩] else []

/-- The writes for a directory's `content.txt`, if present. -/
def contentOpsOf (cfg : LoaderCfg) (nid : NodeId) (content : Option String) :
    List GraphOp :=
  match content with
  | some text => processContentFileOps nid (cfg.split text) cfg.embed
  | none => []

/-- One `process_folder` call over a directory listing: run the loop body
on every entry in name-sorted order and concatenate the issued writes and
the recorded level entries. -/
def processDirOps (cfg : LoaderCfg) (subs : DirForest) (curPath : List String)
    (parentId : NodeId) (parentLevel : Option Nat) : List GraphOp × List LvEntry :=
  let parts := sortParts (processForest cfg subs curPath parentId parentLevel)
  ((parts.map (fun p => p.2.1)).flatten, (parts.map (fun p => p.2.2)).flatten)

/-- Stable insertion for the `NEXT` pass: `sorted(nodes, key=lambda x: x[0])`
sorts the `(order, id, name)` triples by order. -/
def orderedInsertLv (x : Nat × NodeId × String) :
    List (Nat × NodeId × String) → List (Nat × NodeId × String)
  | [] => [x]
  | y :: ys => if y.1 ≤ x.1 then y :: orderedInsertLv x ys else x :: y :: ys

/-- The `NEXT` pass's sort of one level's entries by order (stable). -/
def sortByOrder : List (Nat × NodeId × String) → List (Nat × NodeId × String)
  | [] => []
  | x :: xs => orderedInsertLv x (sortByOrder xs)

/-- The `NEXT` edges between consecutive entries of one (sorted) level
list: `sorted_nodes[i][1] -> sorted_nodes[i+1][1]` for each adjacent
pair. -/
def chainNextOps (l : List (Nat × NodeId × String)) : List GraphOp :=
  (l.zip l.tail).map (fun p => GraphOp.mergeEdge ⟨p.1.2.1, p.2.2.1, "NEXT"⟩)

/-- The keys of the `level_nodes` dictionary in insertion order (Python
dictionaries iterate keys in first-insertion order). -/
def levelKeys (entries : List LvEntry) : List Nat :=
  (entries.map Prod.fst).eraseDups

/-- The value list `level_nodes[lv]`: the `(order, id, name)` triples
recorded at level `lv`, in traversal order. -/
def entriesForLevel (entries : List LvEntry) (lv : Nat) : List (Nat × NodeId × String) :=
  (entries.filter (fun e => e.1 == lv)).map Prod.snd

/-- The second pass of `create_lexical_graph`: for each level, sort that
level's recorded nodes by order and merge a `NEXT` edge between each
consecutive pair. -/
def secondPassOps (entries : List LvEntry) : List GraphOp :=
  (levelKeys entries).flatMap (fun lv => chainNextOps (sortByOrder (entriesForLevel entries lv)))

/-- All graph writes of one `create_lexical_graph` run over the
materialized hierarchy rooted at `root`, in order: the vector-index
creation, the root `Document` node (id derived from the root folder's
basename), the root `content.txt` chunks if present, the recursive
traversal of the subdirectories (with the document as parent and
`parent_level = None`), and the level-wide `NEXT` pass. -/
def createLexicalGraphOps (cfg : LoaderCfg) (root : DirTree)
    (vectorDim : Nat) (vectorSimFunc : String) : List GraphOp :=
  let docId := NodeId.path [root.name]
  let rootContent := match root.content with
    | some t => processContentFileOps docId (cfg.split t) cfg.embed
    | none => []
  let p := processDirOps cfg root.subs [root.name] docId none
  GraphOp.vectorIndex vectorDim vectorSimFunc
    :: GraphOp.mergeNode docId (.doc root.name)
    :: (rootContent ++ p.1 ++ secondPassOps p.2)

/-! ### Derived notions used by the claims -/

/-- The header recognition rule as the specification phrases it: after
optional leading whitespace, one or more hash marks followed by at least
one whitespace character and nonempty text. Used to compare the
specification's wording against `headerMatch`. -/
def specHeaderRule (line : List Char) : Bool :=
  let l1 := line.dropWhile isPySpace
  let hashes := l1.takeWhile (fun c => c == '#')
  let rest := l1.dropWhile (fun c => c == '#')
  !hashes.isEmpty &&
    (match rest with
      | c :: _ => isPySpace c
      | [] => false) &&
    !((rest.dropWhile isPySpace).takeWhile (fun c => c != '\n')).isEmpty

/-- One directory visited as structural by the traversal: the enclosing
parent's level (`none` directly under the document root) and node id, and
the visited directory's parsed level and node id. -/
structure Visit where
  plvl : Option Nat
  pid : NodeId
  level : Nat
  nid : NodeId
deriving DecidableEq, Repr

mutual
/-- The directories the traversal parses as structural nodes, with the
parent data in scope at each visit — the projection of `processTree`
that records, instead of the issued writes, which directory was visited
under which parent. -/
def visitTree : DirTree → List String → NodeId → Option Nat → List Visit
  | .node name _ subs, curPath, parentId, parentLevel =>
    match parseFolderName name with
    | (some level, some _, _, _) =>
      let itemPath := curPath ++ [name]
      ⟨parentLevel, parentId, level, NodeId.path itemPath⟩
        :: visitForest subs itemPath (NodeId.path itemPath) (some level)
    | _ => []
/-- `visitTree` over a directory listing. -/
def visitForest : DirForest → List String → NodeId → Option Nat → List Visit
  | .nil, _, _, _ => []
  | .cons d rest, curPath, parentId, parentLevel =>
    visitTree d curPath parentId parentLevel
      ++ visitForest rest curPath parentId parentLevel
end

/-- The condition of the `HAS_CHILD` creation in `process_folder`:
`parent_level is None or level == parent_level + 1`. -/
def directChildCond (v : Visit) : Prop :=
  v.plvl = none ∨ ∃ pl, v.plvl = some pl ∧ v.level = pl + 1

instance (v : Visit) : Decidable (directChildCond v) := by
  unfold directChildCond
  cases h : v.plvl with
  | none => exact .isTrue (Or.inl rfl)
  | some pl =>
    by_cases hl : v.level = pl + 1
    · exact .isTrue (Or.inr ⟨pl, rfl, hl⟩)
    · refine .isFalse ?_
      rintro (hc | ⟨pl', hpl', hl'⟩)
      · exact Option.noConfusion hc
      · injection hpl' with he
        exact hl (he ▸ hl')

/-- A sequence of graph writes is well formed relative to a set of node
ids already present: every edge merge mentions only endpoint ids that are
already present or were merged earlier in the sequence. On such a
sequence every edge `MATCH` finds both endpoints. -/
def OpsWellFormed : List NodeId → List GraphOp → Prop
  | _, [] => True
  | haveIds, .mergeNode k _ :: rest => OpsWellFormed (k :: haveIds) rest
  | haveIds, .mergeEdge e :: rest =>
    e.src ∈ haveIds ∧ e.dst ∈ haveIds ∧ OpsWellFormed haveIds rest
  | haveIds, .vectorIndex _ _ :: rest => OpsWellFormed haveIds rest

/-- The node ids present after a sequence of writes, given the ids
present before it. -/
def afterKeys (haveIds : List NodeId) (ops : List GraphOp) : List NodeId :=
  ops.foldl
    (fun acc op => match op with
      | .mergeNode k _ => k :: acc
      | _ => acc) haveIds

/-- Apply a sequence of key-value writes by upsert — the effect of a
sequence of `MERGE`-and-`SET` writes on a keyed store, and equally of a
sequence of whole-file writes (`open(..., "w")` overwrites the file at a
path, or creates it). -/
def applyWrites {κ ν : Type} [DecidableEq κ] (m : List (κ × ν)) (ws : List (κ × ν)) :
    List (κ × ν) :=
  ws.foldl (fun acc w => upsertKV acc w.1 w.2) m

/-- The value of the last write to a key in a write sequence, if any. -/
def lastWriteVal {κ ν : Type} [DecidableEq κ] (ws : List (κ × ν)) (k : κ) : Option ν :=
  ws.foldl (fun acc w => if w.1 == k then some w.2 else acc) none

/-- The node writes of an operation sequence, as key-value pairs. -/
def nodeWrites (ops : List GraphOp) : List (NodeId × NodeProps) :=
  ops.filterMap
    (fun op => match op with
      | .mergeNode k p => some (k, p)
      | _ => none)

/-- The last vector-index configuration written by a sequence, if any. -/
def lastVIdx (ops : List GraphOp) : Option (Nat × String) :=
  ops.foldl
    (fun acc op => match op with
      | .vectorIndex d f => some (d, f)
      | _ => acc) none

/-- Whether an operation is a node merge. -/
def isNodeOp : GraphOp → Bool
  | .mergeNode _ _ => true
  | _ => false

/-- The closed form of the chunk list `shrink_file` produces when
`0 < overlap_size < chunk_length`: with stride
`S = chunk_length - overlap_size`, chunk `i` is the slice of length
`chunk_length` starting at `i * S`, and there is one chunk for every
start position below the text length. -/
def shrinkChunksClosed (text : String) (chunkLength overlapSize : Nat) : List String :=
  let S := chunkLength - overlapSize
  let N := text.length
  ((List.range ((N + S - 1) / S)).map
    (fun i => String.mk ((text.toList.drop (i * S)).take chunkLength)))

/-- The decimal digit list of a natural number, most significant first —
the reference form of `Nat.repr`'s output used to reason about the
folder-name round trip. -/
def repDigits (n : Nat) : List Char :=
  if n < 10 then [Nat.digitChar n]
  else repDigits (n / 10) ++ [Nat.digitChar (n % 10)]
decreasing_by exact Nat.div_lt_self (by omega) (by omega)

/-! ### Concrete instances for the claims -/

/-- A loader configuration whose external splitter returns the text as a
single chunk and whose embedding provider always succeeds. -/
def sampleCfg : LoaderCfg where
  split := fun t => [t]
  embed := fun _ => some [1.0]
  levelLabels := ["H1", "H2", "H3", "H4", "H5", "H6"]
  metaLabel := "LexicalGraph"

/-- A loader configuration whose embedding provider raises on every
call. -/
def failingCfg : LoaderCfg where
  split := fun t => [t]
  embed := fun _ => none
  levelLabels := ["H1", "H2", "H3", "H4", "H5", "H6"]
  metaLabel := "LexicalGraph"

/-- A hierarchy containing a non-conforming directory (`stray`) that
itself contains a conforming directory. -/
def strayTree : DirTree :=
  .node "root" none (.ofList [.node "stray" none (.ofList [.node "l0-n1-A" none .nil])])

/-- A hierarchy with three level-1 sections of orders 1, 2, 3 under two
different level-0 parents. -/
def threeParentTree : DirTree :=
  .node "root" none
    (.ofList
      [.node "l0-n1-P1" none (.ofList [.node "l1-n1-A" none .nil]),
       .node "l0-n2-P2" none
         (.ofList [.node "l1-n2-B" none .nil, .node "l1-n3-C" none .nil])])

/-- A hierarchy with a single conforming directory holding one content
file. -/
def oneContentTree : DirTree :=
  .node "root" none (.ofList [.node "l0-n1-A" (some "body") .nil])

/-! ## Lemmas -/

theorem shrinkFuel_overlap_eq_length (text : List Char) (L : Nat) :
    ∀ fuel, shrinkFuel text L L fuel 0 = none ∨ text.length = 0 := by
  intro fuel
  by_cases h : text.length = 0
  · exact Or.inr h
  · left
    induction fuel with
    | zero => rfl
    | succ fuel ih =>
      simp only [shrinkFuel]
      have hlt : 0 < text.length := Nat.pos_of_ne_zero h
      simp only [if_pos hlt]
      have : ¬ (0 + L < L) := by omega
      simp only [if_neg this]
      have : 0 + L - L = 0 := by omega
      rw [this, ih]
      rfl

/-! ## Claims -/

/-- C8: the specification claims every configuration with
`chunk_overlap ≥ chunk_size` is rejected at startup, before any text is
processed. The code performs no such validation: `shrink_file` with
`overlap_size > chunk_length` runs to completion and silently returns a
single chunk holding only the first `chunk_length` characters, and with
`overlap_size = chunk_length` its loop never terminates on nonempty text
(the fuel-indexed embedding returns `none` for every fuel). -/
theorem c8_no_config_validation :
    shrinkFile "abcdefg" 3 5 = some ["abc"]
  ∧ (∀ fuel, shrinkFuel "abcdefg".toList 3 3 fuel 0 = none) := by
  refine ⟨by decide, ?_⟩
  intro fuel
  rcases shrinkFuel_overlap_eq_length "abcdefg".toList 3 fuel with h | h
  · exact h
  · exact absurd h (by decide)

theorem processTree_nonconforming (cfg : LoaderCfg) (d : DirTree)
    (curPath : List String) (pid : NodeId) (plvl : Option Nat)
    (h : (parseFolderName d.name).1 = none) :
    processTree cfg d curPath pid plvl = ([], []) := by
  cases d with
  | node name content subs =>
    simp only [DirTree.name] at h
    rw [processTree]
    rcases hp : parseFolderName name with ⟨lv, od, nm, num⟩
    rw [hp] at h
    simp only at h
    subst h
    rfl

theorem visitTree_nonconforming (d : DirTree)
    (curPath : List String) (pid : NodeId) (plvl : Option Nat)
    (h : (parseFolderName d.name).1 = none) :
    visitTree d curPath pid plvl = [] := by
  cases d with
  | node name content subs =>
    simp only [DirTree.name] at h
    rw [visitTree]
    rcases hp : parseFolderName name with ⟨lv, od, nm, num⟩
    rw [hp] at h
    simp only at h
    subst h
    rfl

/-- C5 counterexample: on a hierarchy whose root contains a
non-conforming directory `stray` holding the conforming directory
`l0-n1-A`, the claim asserts that `l0-n1-A` is still processed into a
structural node. The loader's writes for this hierarchy are exactly the
vector index and the root document node: no node for `l0-n1-A` (or any
heading) is created, because the traversal never descends into `stray`. -/
theorem c5_counterexample :
    createLexicalGraphOps sampleCfg strayTree 1536 "cosine" =
      [GraphOp.vectorIndex 1536 "cosine",
       GraphOp.mergeNode (NodeId.path ["root"]) (.doc "root")]
  ∧ GraphOp.mergeNode (NodeId.path ["root", "stray", "l0-n1-A"])
      (.heading "H1" "LexicalGraph" "A" none)
      ∉ createLexicalGraphOps sampleCfg strayTree 1536 "cosine" := by
  refine ⟨rfl, ?_⟩
  intro hmem
  rw [show createLexicalGraphOps sampleCfg strayTree 1536 "cosine" =
      [GraphOp.vectorIndex 1536 "cosine",
       GraphOp.mergeNode (NodeId.path ["root"]) (.doc "root")] from rfl] at hmem
  simp only [List.mem_cons, List.not_mem_nil, or_false] at hmem
  rcases hmem with h | h <;> simp at h

/-- C5 (amended): a directory whose name does not conform to the
`l(level)-n(order)-(name)` pattern produces no structural node, and —
contrary to the claim — its subdirectories are not visited either: the
directory contributes no graph writes, no level entries and no visits at
all, so conforming descendants are silently dropped. -/
theorem c5_nonconforming_dir_dropped (cfg : LoaderCfg) (d : DirTree)
    (curPath : List String) (pid : NodeId) (plvl : Option Nat)
    (h : (parseFolderName d.name).1 = none) :
    processTree cfg d curPath pid plvl = ([], []) ∧
    visitTree d curPath pid plvl = [] :=
  ⟨processTree_nonconforming cfg d curPath pid plvl h,
   visitTree_nonconforming d curPath pid plvl h⟩

theorem c5_nonconforming_dir_dropped_witness :
    (parseFolderName (DirTree.node "stray" none
        (.ofList [DirTree.node "l0-n1-A" none .nil])).name).1 = none
  ∧ processTree sampleCfg
      (DirTree.node "stray" none (.ofList [DirTree.node "l0-n1-A" none .nil]))
      ["root"] (NodeId.path ["root"]) none = ([], [])
  ∧ visitTree
      (DirTree.node "stray" none (.ofList [DirTree.node "l0-n1-A" none .nil]))
      ["root"] (NodeId.path ["root"]) none = [] := by
  refine ⟨by decide, ?_⟩
  exact c5_nonconforming_dir_dropped sampleCfg
    (DirTree.node "stray" none (.ofList [DirTree.node "l0-n1-A" none .nil]))
    ["root"] (NodeId.path ["root"]) none (by decide)

theorem isPySpace_ne_hash {c : Char} (h : isPySpace c = true) : (c == '#') = false := by
  unfold isPySpace at h
  simp only [Bool.or_eq_true, beq_iff_eq] at h
  obtain ((((h | h) | h) | h) | h) | h := h <;> subst h <;> decide

theorem takeWhile_hash_rep (k : Nat) (c : Char) (rest : List Char)
    (hc : (c == '#') = false) :
    (List.replicate k '#' ++ c :: rest).takeWhile (fun x => x == '#') =
      List.replicate k '#' := by
  induction k with
  | zero => simp [List.takeWhile_cons, hc]
  | succ k ih => simp only [List.replicate_succ, List.cons_append, List.takeWhile_cons]; simp [ih]

theorem dropWhile_hash_rep (k : Nat) (c : Char) (rest : List Char)
    (hc : (c == '#') = false) :
    (List.replicate k '#' ++ c :: rest).dropWhile (fun x => x == '#') = c :: rest := by
  induction k with
  | zero => simp [List.dropWhile_cons, hc]
  | succ k ih => simp only [List.replicate_succ, List.cons_append, List.dropWhile_cons]; simp [ih]

theorem headerMatch_replicate (k : Nat) (c : Char) (rest : List Char)
    (hk : 1 ≤ k) (hc : isPySpace c = true) :
    headerMatch (List.replicate k '#' ++ c :: rest) =
      some (k, ((c :: rest).dropWhile isPySpace).takeWhile (fun c2 => c2 != '\n')) := by
  unfold headerMatch
  rw [takeWhile_hash_rep k c rest (isPySpace_ne_hash hc),
    dropWhile_hash_rep k c rest (isPySpace_ne_hash hc)]
  have hne : (List.replicate k '#').isEmpty = false := by
    cases k with
    | zero => omega
    | succ k => simp [List.replicate_succ]
  simp [hne, hc]

theorem headerMatch_some_decomp (line : List Char) (hm : isHeaderLine line = true) :
    ∃ k c rest, 1 ≤ k ∧ isPySpace c = true ∧
      line = List.replicate k '#' ++ c :: rest := by
  unfold isHeaderLine headerMatch at hm
  dsimp only at hm
  cases hrest : line.dropWhile (fun c => c == '#') with
  | nil => rw [hrest] at hm; simp at hm
  | cons c tail =>
    rw [hrest] at hm
    dsimp only at hm
    by_cases he : (line.takeWhile (fun c => c == '#')).isEmpty
    · rw [if_pos he] at hm; simp at hm
    · rw [if_neg he] at hm
      by_cases hs : isPySpace c
      · refine ⟨(line.takeWhile (fun c => c == '#')).length, c, tail, ?_, hs, ?_⟩
        · rcases hl : line.takeWhile (fun c => c == '#') with _ | ⟨a, l⟩
          · rw [hl] at he; simp at he
          · simp
        · have hdecomp := List.takeWhile_append_dropWhile
            (p := fun c => c == '#') (l := line)
          have hrep : line.takeWhile (fun c => c == '#') =
              List.replicate (line.takeWhile (fun c => c == '#')).length '#' := by
            rw [List.eq_replicate_iff]
            refine ⟨rfl, ?_⟩
            intro b hb
            have := List.mem_takeWhile_imp hb
            simpa [beq_iff_eq] using this
          conv_lhs => rw [← hdecomp]
          rw [← hrep, hrest]
      · rw [if_neg hs] at hm; simp at hm

theorem builderStep_body (root : List String) (st : BState) (line : String)
    (h : isHeaderLine line.toList = false) :
    builderStep root st line = { st with current := st.current ++ [line] } := by
  unfold builderStep
  unfold isHeaderLine at h
  cases hm : headerMatch line.toList with
  | none => rfl
  | some v => rw [hm] at h; simp at h

/-- C7 counterexample: the claim states that a line is recognized as a
header iff, after optional leading whitespace, it starts with a run of
hashes followed by whitespace and nonempty text. The source matches
`r"^(#+)\s+(.*)"` anchored at the start of the line: a header line
preceded by whitespace is NOT recognized, and a hash run followed by
whitespace and empty text IS recognized (with empty title). -/
theorem c7_counterexample :
    specHeaderRule "  ## A\n".toList = true ∧ isHeaderLine "  ## A\n".toList = false
  ∧ specHeaderRule "## \n".toList = false ∧ isHeaderLine "## \n".toList = true := by
  decide

/-- C7 (amended): a line is recognized as a header iff it starts — at
position 0, with no leading whitespace allowed — with one or more hash
characters followed by at least one whitespace character; the text after
the whitespace may be empty. The hash-run length is the section level,
and every non-header line is appended to the body accumulator of the
currently open section. -/
theorem c7_header_recognition :
    (∀ line : List Char, isHeaderLine line = true ↔
      ∃ k c rest, 1 ≤ k ∧ isPySpace c = true ∧
        line = List.replicate k '#' ++ c :: rest)
  ∧ (∀ (k : Nat) (c : Char) (rest : List Char), 1 ≤ k → isPySpace c = true →
      (headerMatch (List.replicate k '#' ++ c :: rest)).map Prod.fst = some k)
  ∧ (∀ (root : List String) (st : BState) (line : String),
      isHeaderLine line.toList = false →
      builderStep root st line = { st with current := st.current ++ [line] }) := by
  refine ⟨?_, ?_, builderStep_body⟩
  · intro line
    constructor
    · exact headerMatch_some_decomp line
    · rintro ⟨k, c, rest, hk, hc, rfl⟩
      unfold isHeaderLine
      rw [headerMatch_replicate k c rest hk hc]
      rfl
  · intro k c rest hk hc
    rw [headerMatch_replicate k c rest hk hc]
    rfl

theorem c7_header_recognition_witness :
    (isHeaderLine "## A\n".toList = true ↔
      ∃ k c rest, 1 ≤ k ∧ isPySpace c = true ∧
        "## A\n".toList = List.replicate k '#' ++ c :: rest)
  ∧ (headerMatch (List.replicate 2 '#' ++ ' ' :: "A\n".toList)).map Prod.fst = some 2
  ∧ builderStep [] ⟨[], [], [], []⟩ "body\n" =
      { (⟨[], [], [], []⟩ : BState) with current := [] ++ ["body\n"] } :=
  ⟨c7_header_recognition.1 "## A\n".toList,
   c7_header_recognition.2.1 2 ' ' "A\n".toList (by decide) (by decide),
   c7_header_recognition.2.2 [] ⟨[], [], [], []⟩ "body\n" (by decide)⟩

theorem pcfGo_countP (pid : NodeId) (embed : String → Option (List Float)) :
    ∀ (chunks : List String) (start : Nat),
      (pcfGo pid embed start chunks).countP isNodeOp = chunks.length := by
  intro chunks
  induction chunks with
  | nil => intro start; rfl
  | cons c rest ih =>
    intro start
    simp only [pcfGo, List.countP_append, List.length_cons, ih (start + 1)]
    have h1 : (List.countP isNodeOp [GraphOp.mergeNode (chunkId pid start)
        (.chunk c (match embed c with
          | some v => v
          | none => List.replicate 1536 0.0) start)]) = 1 := rfl
    have h2 : ∀ e : GEdge, List.countP isNodeOp [GraphOp.mergeEdge e] = 0 := fun _ => rfl
    rw [h1]
    split <;> split <;> simp only [h2, List.countP_nil] <;> omega

theorem pcfGo_mem (pid : NodeId) (embd : String → Option (List Float)) :
    ∀ (chunks : List String) (start idx : Nat) (h : idx < chunks.length),
      GraphOp.mergeNode (chunkId pid (start + idx))
        (.chunk (chunks.get ⟨idx, h⟩)
          (match embd (chunks.get ⟨idx, h⟩) with
            | some v => v
            | none => List.replicate 1536 0.0)
          (start + idx)) ∈ pcfGo pid embd start chunks := by
  intro chunks
  induction chunks with
  | nil => intro start idx h; simp at h
  | cons c rest ih =>
    intro start idx h
    cases idx with
    | zero =>
      simp only [pcfGo]
      exact List.Mem.head _
    | succ n =>
      have hn : n < rest.length := by
        simp only [List.length_cons] at h; omega
      have hmem := ih (start + 1) n hn
      simp only [pcfGo, List.mem_append]
      right
      have harith : start + (n + 1) = start + 1 + n := by omega
      rw [harith]
      exact hmem

/-- C6 counterexample: in a run configured with `vector_dim = 8`, a chunk
whose embedding call raises receives the hardcoded fallback
`[0.0] * 1536`, not a zero vector of the configured dimension: the vector
index is created with dimension 8 while the failed chunk's stored
embedding has length 1536. -/
theorem c6_counterexample :
    (applyOps GraphState.empty
        (createLexicalGraphOps failingCfg oneContentTree 8 "cosine")).indexDim =
      some (8, "cosine")
  ∧ lookupKV (applyOps GraphState.empty
        (createLexicalGraphOps failingCfg oneContentTree 8 "cosine")).nodes
      (chunkId (NodeId.path ["root", "l0-n1-A"]) 0) =
      some (.chunk "body" (List.replicate 1536 0.0) 0)
  ∧ (List.replicate 1536 (0.0 : Float)).length ≠ 8 := by
  refine ⟨rfl, rfl, by rw [List.length_replicate]; decide⟩

/-- C6 (amended): when the embedding provider raises for a chunk, that
chunk's node is still created and carries the hardcoded 1536-dimensional
zero vector (`[0.0] * 1536` in `process_content_file`) — which equals the
configured `vector_dim` only when that is left at its default 1536 —
while every chunk whose call succeeds keeps the provider's vector, and a
node write is issued for every chunk of the unit. -/
theorem c6_zero_vector_fallback (pid : NodeId) (chunks : List String)
    (embd : String → Option (List Float)) (idx : Nat) (h : idx < chunks.length) :
    GraphOp.mergeNode (chunkId pid idx)
      (.chunk (chunks.get ⟨idx, h⟩)
        (match embd (chunks.get ⟨idx, h⟩) with
          | some v => v
          | none => List.replicate 1536 0.0)
        idx) ∈ processContentFileOps pid chunks embd
  ∧ (processContentFileOps pid chunks embd).countP isNodeOp = chunks.length := by
  constructor
  · have hm := pcfGo_mem pid embd chunks 0 idx h
    rw [Nat.zero_add] at hm
    exact hm
  · exact pcfGo_countP pid embd chunks 0

theorem c6_zero_vector_fallback_witness :
    (GraphOp.mergeNode (chunkId (NodeId.path ["w"]) 1)
      (.chunk ((["a", "b"] : List String).get ⟨1, by decide⟩)
        (match (fun s => if s = "a" then some [(1.0 : Float)] else none)
            ((["a", "b"] : List String).get ⟨1, by decide⟩) with
          | some v => v
          | none => List.replicate 1536 0.0)
        1) ∈ processContentFileOps (NodeId.path ["w"]) ["a", "b"]
          (fun s => if s = "a" then some [(1.0 : Float)] else none)
  ∧ (processContentFileOps (NodeId.path ["w"]) ["a", "b"]
        (fun s => if s = "a" then some [(1.0 : Float)] else none)).countP isNodeOp =
      (["a", "b"] : List String).length) :=
  c6_zero_vector_fallback (NodeId.path ["w"]) ["a", "b"]
    (fun s => if s = "a" then some [(1.0 : Float)] else none) 1 (by decide)

theorem getElem?_mapIdx_eq {α β : Type} (f : Nat → α → β) (l : List α) (i : Nat) :
    (l.mapIdx f)[i]? = (l[i]?).map (f i) := by
  by_cases h : i < l.length
  · rw [List.getElem?_eq_getElem (by simpa using h), List.getElem?_eq_getElem h]
    simp [List.getElem_mapIdx]
  · rw [List.getElem?_eq_none (by simpa using Nat.le_of_not_lt h),
      List.getElem?_eq_none (Nat.le_of_not_lt h)]
    rfl

theorem take_append_replicate_getD (c : List Nat) (L j : Nat) (hj : j < L) :
    (((c ++ List.replicate (L - c.length) 0).take L).getD j 0) = c.getD j 0 := by
  rw [List.getD_eq_getElem?_getD, List.getD_eq_getElem?_getD, List.getElem?_take,
    if_pos hj, List.getElem?_append]
  by_cases hc : j < c.length
  · rw [if_pos hc]
  · rw [if_neg hc, List.getElem?_replicate]
    have : j - c.length < L - c.length := by omega
    rw [if_pos this]
    rw [List.getElem?_eq_none (Nat.le_of_not_lt hc)]
    rfl

theorem stepCounters_length (c : List Nat) (L : Nat) (_hL : 1 ≤ L) :
    (stepCounters c L).length = L := by
  unfold stepCounters
  simp only [List.length_mapIdx, List.length_set, List.length_take, List.length_append,
    List.length_replicate]
  omega

theorem stepCounters_getD_self (c : List Nat) (L : Nat) (hL : 1 ≤ L) :
    (stepCounters c L).getD (L - 1) 0 = c.getD (L - 1) 0 + 1 := by
  unfold stepCounters
  rw [List.getD_eq_getElem?_getD, getElem?_mapIdx_eq]
  have hlen : ((c ++ List.replicate (L - c.length) 0).take L).length = L := by
    simp only [List.length_take, List.length_append, List.length_replicate]
    omega
  rw [List.getElem?_set_self (by omega)]
  rw [Option.map_some', Option.getD_some]
  rw [if_neg (by omega : ¬ L ≤ L - 1)]
  rw [take_append_replicate_getD c L (L - 1) (by omega)]

theorem stepCounters_getD_lt (c : List Nat) (L j : Nat) (hj : j < L - 1) :
    (stepCounters c L).getD j 0 = c.getD j 0 := by
  unfold stepCounters
  rw [List.getD_eq_getElem?_getD, getElem?_mapIdx_eq]
  rw [List.getElem?_set_ne (by omega)]
  rw [List.getElem?_take, if_pos (by omega : j < L), List.getElem?_append]
  by_cases hc : j < c.length
  · rw [if_pos hc, List.getD_eq_getElem?_getD]
    rw [List.getElem?_eq_getElem hc, Option.map_some', Option.getD_some]
    rw [if_neg (by omega : ¬ L ≤ j)]
    rfl
  · rw [if_neg hc, List.getElem?_replicate, List.getD_eq_getElem?_getD,
      List.getElem?_eq_none (Nat.le_of_not_lt hc)]
    have hlt : j - c.length < L - c.length := by omega
    rw [if_pos hlt, Option.map_some', Option.getD_some]
    rw [if_neg (by omega : ¬ L ≤ j)]
    rfl

theorem stepCounters_getD_ge (c : List Nat) (L j : Nat) (hL : 1 ≤ L) (hj : L ≤ j) :
    (stepCounters c L).getD j 0 = 0 := by
  rw [List.getD_eq_getElem?_getD,
    List.getElem?_eq_none (by rw [stepCounters_length c L hL]; omega)]
  rfl

theorem foldCounters_getD (L : Nat) (hL : 1 ≤ L) :
    ∀ levels : List Nat, (∀ x ∈ levels, 1 ≤ x) →
      (foldCounters levels).getD (L - 1) 0 =
        (levels.reverse.takeWhile (fun x => decide (L ≤ x))).count L := by
  intro levels
  induction levels using List.reverseRecOn with
  | nil => intro _; rfl
  | append_singleton xs M ih =>
    intro hall
    have hM : 1 ≤ M := hall M (by simp)
    have hxs : ∀ x ∈ xs, 1 ≤ x := fun x hx => hall x (by simp [hx])
    have hfold : foldCounters (xs ++ [M]) = stepCounters (foldCounters xs) M := by
      unfold foldCounters
      rw [List.foldl_append]
      rfl
    rw [hfold, List.reverse_append]
    simp only [List.reverse_singleton, List.singleton_append]
    rcases lt_trichotomy M L with hlt | heq | hgt
    · rw [stepCounters_getD_ge _ M (L - 1) hM (by omega)]
      have hdec : (decide (L ≤ M)) = false := by simp; omega
      simp [List.takeWhile_cons, hdec]
    · subst heq
      rw [stepCounters_getD_self _ M hM, ih hxs]
      have hdec : (decide (M ≤ M)) = true := by simp
      simp [List.takeWhile_cons, hdec, List.count_cons]
    · rw [stepCounters_getD_lt _ M (L - 1) (by omega), ih hxs]
      have hdec : (decide (L ≤ M)) = true := by simp; omega
      have hne : (M == L) = false := by simp; omega
      simp [List.takeWhile_cons, hdec, List.count_cons, hne]

theorem headerOrdersFrom_append (xs : List Nat) (L : Nat) :
    ∀ c : List Nat, headerOrdersFrom c (xs ++ [L]) =
      headerOrdersFrom c xs ++ [(stepCounters (xs.foldl stepCounters c) L).getD (L - 1) 0] := by
  induction xs with
  | nil => intro c; rfl
  | cons x rest ih =>
    intro c
    simp only [List.cons_append, headerOrdersFrom, List.foldl_cons, List.append_eq, ih]

/-- C1: the Header Parser's counter loop assigns, to the six headers of a
line sequence whose header levels are 2, 3, 3, 2, 1, 2, the orders
1, 1, 2, 2, 1, 1. In general the order assigned to a new header of level
L is one more than the number of level-L headers seen since the last
header of a level shallower than L (so same-level siblings between two
resets receive strictly increasing orders starting at 1), and one counter
update at level L truncates the counter array to length exactly L
(resetting every deeper level) while leaving the entries of all
shallower levels unchanged and incrementing the entry of level L. -/
theorem c1_level_order_assignment :
    headerOrders (headerLevels
      ["## A\n".toList, "### B\n".toList, "body\n".toList, "### C\n".toList,
       "## D\n".toList, "# E\n".toList, "## F\n".toList]) = [1, 1, 2, 2, 1, 1]
  ∧ (∀ (xs : List Nat) (L : Nat), (∀ x ∈ xs, 1 ≤ x) → 1 ≤ L →
      headerOrders (xs ++ [L]) =
        headerOrders xs ++ [(xs.reverse.takeWhile (fun x => decide (L ≤ x))).count L + 1])
  ∧ (∀ (c : List Nat) (L : Nat), 1 ≤ L →
      (stepCounters c L).length = L ∧
      (∀ j, j < L - 1 → (stepCounters c L).getD j 0 = c.getD j 0) ∧
      (stepCounters c L).getD (L - 1) 0 = c.getD (L - 1) 0 + 1) := by
  refine ⟨by decide, ?_, ?_⟩
  · intro xs L hxs hL
    unfold headerOrders
    rw [headerOrdersFrom_append xs L []]
    have : (stepCounters (xs.foldl stepCounters []) L).getD (L - 1) 0 =
        (xs.reverse.takeWhile (fun x => decide (L ≤ x))).count L + 1 := by
      have hself := stepCounters_getD_self (xs.foldl stepCounters []) L hL
      rw [hself]
      have hinv := foldCounters_getD L hL xs hxs
      unfold foldCounters at hinv
      rw [hinv]
    rw [this]
  · intro c L hL
    exact ⟨stepCounters_length c L hL,
      fun j hj => stepCounters_getD_lt c L j hj,
      stepCounters_getD_self c L hL⟩

theorem c1_level_order_assignment_witness :
    headerOrders ([2, 3, 3, 2] ++ [2]) =
      headerOrders [2, 3, 3, 2] ++
        [([2, 3, 3, 2].reverse.takeWhile (fun x => decide (2 ≤ x))).count 2 + 1]
  ∧ (stepCounters [1, 1] 3).length = 3 := by
  constructor
  · exact c1_level_order_assignment.2.1 [2, 3, 3, 2] 2 (by decide) (by decide)
  · exact (c1_level_order_assignment.2.2 [1, 1] 3 (by decide)).1

theorem mem_orderedInsertLv (x a : Nat × NodeId × String) :
    ∀ s, a ∈ orderedInsertLv x s ↔ a = x ∨ a ∈ s := by
  intro s
  induction s with
  | nil => simp [orderedInsertLv]
  | cons y ys ih =>
    unfold orderedInsertLv
    split
    · simp only [List.mem_cons, ih]
      tauto
    · simp [List.mem_cons]

theorem perm_orderedInsertLv (x : Nat × NodeId × String) :
    ∀ s, List.Perm (orderedInsertLv x s) (x :: s) := by
  intro s
  induction s with
  | nil => simp [orderedInsertLv]
  | cons y ys ih =>
    unfold orderedInsertLv
    split
    · exact List.Perm.trans (List.Perm.cons y ih) (List.Perm.swap x y ys)
    · exact List.Perm.refl _

theorem perm_sortByOrder : ∀ l, List.Perm (sortByOrder l) l := by
  intro l
  induction l with
  | nil => exact List.Perm.refl _
  | cons x xs ih =>
    unfold sortByOrder
    exact List.Perm.trans (perm_orderedInsertLv x (sortByOrder xs)) (List.Perm.cons x ih)

theorem pairwise_orderedInsertLv (x : Nat × NodeId × String) :
    ∀ s, List.Pairwise (fun a b => a.1 ≤ b.1) s →
      List.Pairwise (fun a b => a.1 ≤ b.1) (orderedInsertLv x s) := by
  intro s
  induction s with
  | nil => intro _; simp [orderedInsertLv]
  | cons y ys ih =>
    intro hs
    rw [List.pairwise_cons] at hs
    unfold orderedInsertLv
    split
    · rename_i hle
      rw [List.pairwise_cons]
      constructor
      · intro a ha
        rw [mem_orderedInsertLv] at ha
        rcases ha with rfl | ha
        · exact hle
        · exact hs.1 a ha
      · exact ih hs.2
    · rename_i hgt
      rw [List.pairwise_cons]
      constructor
      · intro a ha
        rcases List.mem_cons.mp ha with rfl | ha
        · omega
        · exact le_trans (by omega) (hs.1 a ha)
      · exact List.pairwise_cons.mpr hs

theorem pairwise_sortByOrder : ∀ l, List.Pairwise (fun a b => a.1 ≤ b.1) (sortByOrder l) := by
  intro l
  induction l with
  | nil => simp [sortByOrder]
  | cons x xs ih =>
    unfold sortByOrder
    exact pairwise_orderedInsertLv x (sortByOrder xs) ih

theorem map_fst_zip_tail {α : Type} : ∀ l : List α, (l.zip l.tail).map Prod.fst = l.dropLast := by
  intro l
  match l with
  | [] => rfl
  | [a] => rfl
  | a :: b :: r =>
    have ih := map_fst_zip_tail (b :: r)
    simp only [List.tail_cons, List.zip_cons_cons, List.map_cons]
    rw [show (b :: r).tail = r from rfl] at ih
    rw [ih]
    rfl

theorem chainNextOps_length (l : List (Nat × NodeId × String)) :
    (chainNextOps l).length = l.length - 1 := by
  unfold chainNextOps
  rw [List.length_map, List.length_zip, List.length_tail]
  omega

theorem chainNextOps_nodup (l : List (Nat × NodeId × String))
    (h : (l.map (fun e => e.2.1)).Nodup) : (chainNextOps l).Nodup := by
  apply List.Nodup.of_map (f := fun op => match op with
    | GraphOp.mergeEdge e => e.src
    | _ => NodeId.path [])
  unfold chainNextOps
  rw [List.map_map]
  have hmap : ((fun op => match op with
      | GraphOp.mergeEdge e => e.src
      | _ => NodeId.path []) ∘ fun p => GraphOp.mergeEdge ⟨p.1.2.1, p.2.2.1, "NEXT"⟩) =
      fun p : (Nat × NodeId × String) × (Nat × NodeId × String) => p.1.2.1 := rfl
  rw [hmap]
  have : (fun p : (Nat × NodeId × String) × (Nat × NodeId × String) => p.1.2.1) =
      (fun e : Nat × NodeId × String => e.2.1) ∘ Prod.fst := rfl
  rw [this, ← List.map_map, map_fst_zip_tail]
  have hsub : List.Sublist (l.dropLast.map fun e => e.2.1) (l.map fun e => e.2.1) :=
    List.Sublist.map _ (List.dropLast_sublist l)
  exact List.Nodup.sublist hsub h

/-- C3: after the traversal, the second pass chains StructuralNodes of
the same hierarchy level by `order` across the whole level, ignoring
parents. Concretely, for a hierarchy with three level-1 sections of
orders 1, 2, 3 under two different parents, the loaded graph's edge list
is the five `HAS_CHILD` edges followed by exactly one `NEXT` chain per
level — in particular exactly two `NEXT` edges 1→2→3 among the three
level-1 nodes although they belong to different parents. In general the
per-level pass emits exactly `n - 1` edges for `n` recorded nodes, the
sort is a permutation of the recorded nodes that is ascending in `order`,
and (for distinct node ids) no chained pair is emitted twice. -/
theorem c3_level_wide_next_chain :
    (applyOps GraphState.empty
        (createLexicalGraphOps sampleCfg threeParentTree 1536 "cosine")).edges =
      [⟨NodeId.path ["root"], NodeId.path ["root", "l0-n1-P1"], "HAS_CHILD"⟩,
       ⟨NodeId.path ["root", "l0-n1-P1"],
         NodeId.path ["root", "l0-n1-P1", "l1-n1-A"], "HAS_CHILD"⟩,
       ⟨NodeId.path ["root"], NodeId.path ["root", "l0-n2-P2"], "HAS_CHILD"⟩,
       ⟨NodeId.path ["root", "l0-n2-P2"],
         NodeId.path ["root", "l0-n2-P2", "l1-n2-B"], "HAS_CHILD"⟩,
       ⟨NodeId.path ["root", "l0-n2-P2"],
         NodeId.path ["root", "l0-n2-P2", "l1-n3-C"], "HAS_CHILD"⟩,
       ⟨NodeId.path ["root", "l0-n1-P1"], NodeId.path ["root", "l0-n2-P2"], "NEXT"⟩,
       ⟨NodeId.path ["root", "l0-n1-P1", "l1-n1-A"],
         NodeId.path ["root", "l0-n2-P2", "l1-n2-B"], "NEXT"⟩,
       ⟨NodeId.path ["root", "l0-n2-P2", "l1-n2-B"],
         NodeId.path ["root", "l0-n2-P2", "l1-n3-C"], "NEXT"⟩]
  ∧ (∀ entries : List LvEntry, secondPassOps entries =
      (levelKeys entries).flatMap
        (fun lv => chainNextOps (sortByOrder (entriesForLevel entries lv))))
  ∧ (∀ l : List (Nat × NodeId × String),
      List.Perm (sortByOrder l) l
      ∧ List.Pairwise (fun a b => a.1 ≤ b.1) (sortByOrder l)
      ∧ (chainNextOps (sortByOrder l)).length = l.length - 1
      ∧ (((sortByOrder l).map (fun e => e.2.1)).Nodup →
          (chainNextOps (sortByOrder l)).Nodup)) := by
  refine ⟨by decide, fun _ => rfl, ?_⟩
  intro l
  refine ⟨perm_sortByOrder l, pairwise_sortByOrder l, ?_, chainNextOps_nodup _⟩
  rw [chainNextOps_length, List.Perm.length_eq (perm_sortByOrder l)]

theorem c3_level_wide_next_chain_witness :
    ((sortByOrder [(2, NodeId.path ["b"], "b"), (1, NodeId.path ["a"], "a")]).map
        (fun e => e.2.1)).Nodup
  ∧ (chainNextOps (sortByOrder
      [(2, NodeId.path ["b"], "b"), (1, NodeId.path ["a"], "a")])).Nodup := by
  refine ⟨by decide, ?_⟩
  exact (c3_level_wide_next_chain.2.2
    [(2, NodeId.path ["b"], "b"), (1, NodeId.path ["a"], "a")]).2.2.2 (by decide)

theorem shrinkFuel_spec (text : List Char) (L O : Nat) (_hO : 0 < O) (hOL : O < L) :
    ∀ (fuel j : Nat), (text.length + (L - O) - 1) / (L - O) - j < fuel →
      shrinkFuel text L O fuel (j * (L - O)) =
        some ((List.range ((text.length + (L - O) - 1) / (L - O) - j)).map
          (fun i => (text.drop ((i + j) * (L - O))).take L)) := by
  set S := L - O with hS
  set N := text.length with hN
  set k := (N + S - 1) / S with hk
  have hSpos : 0 < S := by omega
  intro fuel
  induction fuel with
  | zero => intro j h; omega
  | succ fuel ih =>
    intro j h
    by_cases hj : j * S < N
    · have hjk : j < k := by
        have h1 : j + 1 ≤ k := by
          rw [hk, Nat.le_div_iff_mul_le hSpos]
          have : (j + 1) * S = j * S + S := by ring
          omega
        omega
      rw [shrinkFuel]
      rw [if_pos (by rw [← hN]; exact hj)]
      rw [if_neg (by omega : ¬ j * S + L < O)]
      have harith : j * S + L - O = (j + 1) * S := by
        have : (j + 1) * S = j * S + S := by ring
        omega
      rw [harith, ih (j + 1) (by omega)]
      simp only [Option.map_some']
      congr 1
      have hsucc : k - j = (k - (j + 1)) + 1 := by omega
      rw [hsucc, List.range_succ_eq_map, List.map_cons, List.map_map]
      congr 1
      · simp
      · apply List.map_congr_left
        intro i _
        have : Nat.succ i + j = i + (j + 1) := by omega
        simp [Function.comp, this]
    · have hjk : k ≤ j := by
        have h1 : k ≤ j := by
          rw [hk, Nat.div_le_iff_le_mul_add_pred hSpos]
          have : j * S + (S - 1) = S * j + (S - 1) := by ring
          omega
        exact h1
      rw [shrinkFuel]
      rw [if_neg (by rw [← hN]; omega)]
      have : k - j = 0 := by omega
      rw [this]
      rfl

theorem shrinkFile_closed_form (text : String) (L O : Nat) (hO : 0 < O) (hOL : O < L) :
    shrinkFile text L O = some (shrinkChunksClosed text L O) := by
  unfold shrinkFile shrinkChunksClosed
  have hlen : text.toList.length = text.length := rfl
  have hk : (text.toList.length + (L - O) - 1) / (L - O) - 0 < text.length + 1 := by
    rw [hlen]
    have hS : 0 < L - O := by omega
    have hle : (text.length + (L - O) - 1) / (L - O) ≤ text.length := by
      rw [Nat.div_le_iff_le_mul_add_pred hS]
      have h1 : text.length * 1 ≤ text.length * (L - O) :=
        Nat.mul_le_mul_left _ hS
      have h2 : (L - O) * text.length = text.length * (L - O) := by ring
      omega
    omega
  have := shrinkFuel_spec text.toList L O hO hOL (text.length + 1) 0 hk
  rw [Nat.zero_mul] at this
  rw [this]
  simp only [Option.map_some']
  congr 1
  have hlen : text.toList.length = text.length := by
    rw [String.length]; rfl
  rw [hlen, List.map_map]
  apply List.map_congr_left
  intro i _
  simp [Function.comp]

/-- C9 counterexample: with text `abcdefg`, `chunk_length = 5` and
`overlap_size = 2`, `shrink_file` produces the chunks
`abcde`, `defg`, `g`: the middle chunk has length 4 < 5 although it is
not the final chunk, and its trailing two characters `fg` are not the
leading characters of the next chunk `g` — so neither "only the final
chunk may be shorter" nor the trailing-overlap equality holds as
claimed. -/
theorem c9_counterexample :
    shrinkFile "abcdefg" 5 2 = some ["abcde", "defg", "g"]
  ∧ ("defg" : String).length ≠ 5
  ∧ ("defg".toList.drop ("defg".length - 2)) ≠ ("g".toList.take 2) := by
  refine ⟨by decide, by decide, by decide⟩

/-- C9 (amended): for `0 < overlap_size < chunk_length` and stride
`S = chunk_length - overlap_size`, chunk `i` equals
`text[i*S : i*S + chunk_length]`, with exactly one chunk per start
position `i*S` below the text length. Hence whenever chunk `i` has full
length and chunk `i+1` exists, chunk `i`'s trailing `overlap_size`
characters equal chunk `i+1`'s leading `overlap_size` characters. A
trailing portion of the text shorter than `chunk_length` may however
span several chunks, so more than just the final chunk can be short. -/
theorem c9_overlap_chunking (text : String) (L O : Nat) (hO : 0 < O) (hOL : O < L) :
    shrinkFile text L O = some (shrinkChunksClosed text L O)
  ∧ (∀ i, (i + 1) * (L - O) < text.length → i * (L - O) + L ≤ text.length →
      ((text.toList.drop (i * (L - O))).take L).drop (L - O) =
        ((text.toList.drop ((i + 1) * (L - O))).take L).take O) := by
  refine ⟨shrinkFile_closed_form text L O hO hOL, ?_⟩
  intro i _ _
  rw [List.drop_take, List.drop_drop, List.take_take]
  have h1 : L - (L - O) = O := by omega
  have h2 : min O L = O := by omega
  have h3 : i * (L - O) + (L - O) = (i + 1) * (L - O) := by ring
  rw [h1, h2, h3]

theorem c9_overlap_chunking_witness :
    shrinkFile "abcdefg" 5 2 = some (shrinkChunksClosed "abcdefg" 5 2)
  ∧ (("abcdefg".toList.drop (0 * (5 - 2))).take 5).drop (5 - 2) =
      (("abcdefg".toList.drop ((0 + 1) * (5 - 2))).take 5).take 2 := by
  have h := c9_overlap_chunking "abcdefg" 5 2 (by decide) (by decide)
  exact ⟨h.1, h.2 0 (by decide) (by decide)⟩

theorem takeWhile_append_all {α : Type} (p : α → Bool) (xs : List α) (y : α) (ys : List α)
    (hall : ∀ x ∈ xs, p x = true) (hy : p y = false) :
    (xs ++ y :: ys).takeWhile p = xs ∧ (xs ++ y :: ys).dropWhile p = y :: ys := by
  induction xs with
  | nil => simp [List.takeWhile_cons, List.dropWhile_cons, hy]
  | cons a rest ih =>
    have ha : p a = true := hall a (by simp)
    have hrest : ∀ x ∈ rest, p x = true := fun x hx => hall x (by simp [hx])
    simp only [List.cons_append, List.takeWhile_cons, List.dropWhile_cons, ha, if_pos]
    have := ih hrest
    simp [this.1, this.2, ha]

theorem toDigitsCore_eq_repDigits :
    ∀ (fuel n : Nat) (acc : List Char), n < 10 ^ fuel → 1 ≤ fuel →
      Nat.toDigitsCore 10 fuel n acc = repDigits n ++ acc := by
  intro fuel
  induction fuel with
  | zero => intro n acc _ h; omega
  | succ f ih =>
    intro n acc hlt _
    rw [Nat.toDigitsCore]
    by_cases hdiv : n / 10 = 0
    · have hn : n < 10 := (Nat.div_eq_zero_iff (by omega)).mp hdiv
      simp only [hdiv, if_pos]
      rw [repDigits, if_pos hn, Nat.mod_eq_of_lt hn]
      rfl
    · simp only [hdiv, if_neg, ite_false]
      have hn10 : ¬ n < 10 := by
        intro hc
        exact hdiv ((Nat.div_eq_zero_iff (by omega)).mpr hc)
      have hf : 1 ≤ f := by
        by_contra hc
        have hf0 : f = 0 := by omega
        subst hf0
        simp only [pow_succ, pow_zero, one_mul] at hlt
        omega
      have hdivlt : n / 10 < 10 ^ f := by
        rw [Nat.div_lt_iff_lt_mul (by omega)]
        calc n < 10 ^ (f + 1) := hlt
        _ = 10 ^ f * 10 := by ring
      rw [ih (n / 10) (Nat.digitChar (n % 10) :: acc) hdivlt hf]
      conv_rhs => rw [repDigits, if_neg hn10]
      simp [List.append_assoc]

theorem toString_nat_toList (n : Nat) : (toString n).toList = repDigits n := by
  show (Nat.repr n).toList = repDigits n
  have h1 : Nat.repr n = (Nat.toDigits 10 n).asString := rfl
  have h2 : Nat.toDigits 10 n = Nat.toDigitsCore 10 (n + 1) n [] := rfl
  have hpow : n < 10 ^ (n + 1) := by
    calc n < 10 ^ n := Nat.lt_pow_self (by omega) n
    _ ≤ 10 ^ (n + 1) := Nat.pow_le_pow_right (by omega) (by omega)
  rw [h1, h2, toDigitsCore_eq_repDigits (n + 1) n [] hpow (by omega)]
  rw [List.append_nil]
  rfl

theorem digitChar_isDigit {m : Nat} (h : m < 10) : (Nat.digitChar m).isDigit = true := by
  interval_cases m <;> decide

theorem digitChar_val {m : Nat} (h : m < 10) :
    (Nat.digitChar m).toNat - ('0' : Char).toNat = m := by
  interval_cases m <;> decide

theorem repDigits_ne_nil (n : Nat) : repDigits n ≠ [] := by
  rw [repDigits]
  split <;> simp

theorem repDigits_all_digit (n : Nat) : ∀ c ∈ repDigits n, c.isDigit = true := by
  induction n using Nat.strong_induction_on with
  | _ n ih =>
    rw [repDigits]
    split
    · rename_i hn
      intro c hc
      simp only [List.mem_singleton] at hc
      subst hc
      exact digitChar_isDigit hn
    · rename_i hn
      intro c hc
      rw [List.mem_append] at hc
      rcases hc with hc | hc
      · exact ih (n / 10) (Nat.div_lt_self (by omega) (by omega)) c hc
      · simp only [List.mem_singleton] at hc
        subst hc
        exact digitChar_isDigit (Nat.mod_lt n (by omega))

theorem digitsToNat_append_singleton (xs : List Char) (c : Char) :
    digitsToNat (xs ++ [c]) = digitsToNat xs * 10 + (c.toNat - ('0' : Char).toNat) := by
  unfold digitsToNat
  rw [List.foldl_append]
  rfl

theorem digitsToNat_repDigits (n : Nat) : digitsToNat (repDigits n) = n := by
  induction n using Nat.strong_induction_on with
  | _ n ih =>
    rw [repDigits]
    split
    · rename_i hn
      show digitsToNat [Nat.digitChar n] = n
      unfold digitsToNat
      simp only [List.foldl_cons, List.foldl_nil]
      rw [Nat.zero_mul, Nat.zero_add]
      exact digitChar_val hn
    · rename_i hn
      rw [digitsToNat_append_singleton,
        ih (n / 10) (Nat.div_lt_self (by omega) (by omega)),
        digitChar_val (Nat.mod_lt n (by omega))]
      omega

theorem matchDotPlusEnd_clean (l : List Char) (hne : l ≠ [])
    (hnl : ∀ c ∈ l, c ≠ '\n') : matchDotPlusEnd l = some l := by
  unfold matchDotPlusEnd
  have hlast : (l.getLast? == some '\n') = false := by
    cases hg : l.getLast? with
    | none => rfl
    | some c =>
      have hc : c ∈ l := List.mem_of_getLast?_eq_some hg
      simp [hnl c hc]
  rw [hlast]
  simp only [Bool.false_eq_true, if_false]
  have hie : l.isEmpty = false := by
    cases l with
    | nil => exact absurd rfl hne
    | cons a r => rfl
  have hany : (l.any fun c => c == '\n') = false := by
    rw [List.any_eq_false]
    intro c hc
    simp [hnl c hc]
  rw [hie, hany]
  rfl

theorem string_toList_ne_nil (t : String) (h : t ≠ "") : t.toList ≠ [] := by
  intro hc
  apply h
  cases t with
  | mk data =>
    simp only [String.toList] at hc
    simp [hc]

theorem mkFolderName_toList (L o : Nat) (t : String) :
    (mkFolderName L o t).toList =
      'l' :: (repDigits (L - 1) ++ '-' :: 'n' :: (repDigits o ++ '-' :: t.toList)) := by
  unfold mkFolderName
  have happ : ∀ a b : String, (a ++ b).toList = a.toList ++ b.toList :=
    fun a b => String.data_append a b
  rw [happ, happ, happ, happ, happ]
  rw [toString_nat_toList, toString_nat_toList]
  have h1 : ("l" : String).toList = ['l'] := rfl
  have h2 : ("-n" : String).toList = ['-', 'n'] := rfl
  have h3 : ("-" : String).toList = ['-'] := rfl
  rw [h1, h2, h3]
  simp [List.append_assoc]

theorem parseFolderCore_mk (L o : Nat) (t : String)
    (ht : t.toList ≠ []) (hnl : ∀ c ∈ t.toList, c ≠ '\n') :
    parseFolderCore (mkFolderName L o t).toList = some (L - 1, o, t.toList) := by
  rw [mkFolderName_toList]
  have hdash : ('-' : Char).isDigit = false := by decide
  have htw1 := takeWhile_append_all Char.isDigit (repDigits (L - 1)) '-'
    ('n' :: (repDigits o ++ '-' :: t.toList)) (repDigits_all_digit (L - 1)) hdash
  have htw2 := takeWhile_append_all Char.isDigit (repDigits o) '-'
    t.toList (repDigits_all_digit o) hdash
  have hne1 : (repDigits (L - 1)).isEmpty = false := by
    cases hr : repDigits (L - 1) with
    | nil => exact absurd hr (repDigits_ne_nil _)
    | cons a r => rfl
  have hne2 : (repDigits o).isEmpty = false := by
    cases hr : repDigits o with
    | nil => exact absurd hr (repDigits_ne_nil _)
    | cons a r => rfl
  unfold parseFolderCore
  simp only [htw1.1, htw1.2, htw2.1, htw2.2, hne1, hne2, Bool.false_eq_true, if_false,
    matchDotPlusEnd_clean t.toList ht hnl, digitsToNat_repDigits, Option.map_some']

/-- C10: the Graph Loader's `parse_folder_name` inverts the Hierarchy
Builder's folder-name composition: for level ≥ 1, order ≥ 1 and a
nonempty title without newline or path separator, parsing
`l(level-1)-n(order)-title` returns exactly the level `level - 1`, the
order, the title, and the title's optional leading dotted number (e.g.
`2.1` from `2.1 Introduction`). An empty title yields a name the pattern
rejects (`(.+)` needs at least one character), which parses to the
no-structural-node quadruple, so such a section is dropped from the
graph. -/
theorem c10_folder_name_roundtrip :
    (∀ (level order : Nat) (title : String), 1 ≤ level → 1 ≤ order →
      title ≠ "" → (∀ c ∈ title.toList, c ≠ '\n' ∧ c ≠ '/') →
      parseFolderName (mkFolderName level order title) =
        (some (level - 1), some order, title, numberOf title))
  ∧ (∀ level order : Nat, 1 ≤ level →
      parseFolderName (mkFolderName level order "") =
        (none, none, mkFolderName level order "", none))
  ∧ numberOf "2.1 Introduction" = some "2.1" := by
  refine ⟨?_, ?_, by decide⟩
  · intro level order title _ _ hne hclean
    have hcore := parseFolderCore_mk level order title
      (string_toList_ne_nil title hne) (fun c hc => (hclean c hc).1)
    unfold parseFolderName
    rw [hcore]
    rfl
  · intro level order _
    have hlist := mkFolderName_toList level order ""
    have hempty : ("" : String).toList = [] := rfl
    rw [hempty] at hlist
    have hdash : ('-' : Char).isDigit = false := by decide
    have htw1 := takeWhile_append_all Char.isDigit (repDigits (level - 1)) '-'
      ('n' :: (repDigits order ++ '-' :: [])) (repDigits_all_digit (level - 1)) hdash
    have htw2 := takeWhile_append_all Char.isDigit (repDigits order) '-'
      [] (repDigits_all_digit order) hdash
    have hne1 : (repDigits (level - 1)).isEmpty = false := by
      cases hr : repDigits (level - 1) with
      | nil => exact absurd hr (repDigits_ne_nil _)
      | cons a r => rfl
    have hne2 : (repDigits order).isEmpty = false := by
      cases hr : repDigits order with
      | nil => exact absurd hr (repDigits_ne_nil _)
      | cons a r => rfl
    have hcore : parseFolderCore (mkFolderName level order "").toList = none := by
      rw [hlist]
      unfold parseFolderCore
      simp only [htw1.1, htw1.2, htw2.1, htw2.2, hne1, hne2, Bool.false_eq_true, if_false]
      rfl
    unfold parseFolderName
    rw [hcore]

theorem c10_folder_name_roundtrip_witness :
    parseFolderName (mkFolderName 2 1 "2.1 Introduction") =
      (some 1, some 1, "2.1 Introduction", numberOf "2.1 Introduction")
  ∧ parseFolderName (mkFolderName 3 2 "") = (none, none, mkFolderName 3 2 "", none) := by
  constructor
  · exact c10_folder_name_roundtrip.1 2 1 "2.1 Introduction" (by decide) (by decide)
      (by decide) (by decide)
  · exact c10_folder_name_roundtrip.2.1 3 2 (by decide)

section KVLemmas

variable {κ ν : Type} [DecidableEq κ]

theorem lookupKV_cons (e : κ × ν) (rest : List (κ × ν)) (q : κ) :
    lookupKV (e :: rest) q = if e.1 = q then some e.2 else lookupKV rest q := by
  unfold lookupKV
  by_cases h : e.1 = q
  · rw [List.find?_cons_of_pos _ (by simpa using h), if_pos h]
    rfl
  · rw [List.find?_cons_of_neg _ (by simpa using h), if_neg h]

theorem lookupKV_upsertKV (m : List (κ × ν)) (k : κ) (v : ν) (q : κ) :
    lookupKV (upsertKV m k v) q = if q = k then some v else lookupKV m q := by
  induction m with
  | nil =>
    unfold upsertKV
    rw [lookupKV_cons]
    by_cases h : q = k
    · rw [if_pos (show (k, v).1 = q from h.symm), if_pos h]
    · rw [if_neg (show ¬ (k, v).1 = q from fun hc => h hc.symm), if_neg h]
  | cons e rest ih =>
    unfold upsertKV
    by_cases he : e.1 = k
    · rw [if_pos (by simpa using he)]
      rw [lookupKV_cons, lookupKV_cons]
      by_cases hq : q = k
      · rw [if_pos (show (k, v).1 = q from hq.symm), if_pos hq]
      · rw [if_neg (show ¬ (k, v).1 = q from fun hc => hq hc.symm), if_neg hq,
          if_neg (show ¬ e.1 = q from fun hc => hq (by rw [← hc, he]))]
    · rw [if_neg (by simpa using he)]
      rw [lookupKV_cons, lookupKV_cons]
      by_cases hq : e.1 = q
      · rw [if_pos hq, if_pos hq, if_neg (fun hc : q = k => he (hq.trans hc))]
      · rw [if_neg hq, if_neg hq, ih]

theorem lookupKV_eq_none_of_not_mem (m : List (κ × ν)) (q : κ)
    (h : q ∉ m.map Prod.fst) : lookupKV m q = none := by
  induction m with
  | nil => rfl
  | cons e rest ih =>
    rw [lookupKV_cons]
    simp only [List.map_cons, List.mem_cons] at h
    push_neg at h
    rw [if_neg (fun hc => h.1 hc.symm)]
    exact ih h.2

theorem keys_upsertKV_mem (m : List (κ × ν)) (k : κ) (v : ν)
    (h : k ∈ m.map Prod.fst) : (upsertKV m k v).map Prod.fst = m.map Prod.fst := by
  induction m with
  | nil => simp at h
  | cons e rest ih =>
    unfold upsertKV
    by_cases he : e.1 = k
    · rw [if_pos (by simpa using he)]
      simp [he]
    · rw [if_neg (by simpa using he)]
      simp only [List.map_cons, List.mem_cons] at h
      rcases h with h | h
      · exact absurd h.symm he
      · simp [ih h]

theorem mem_keys_upsertKV (m : List (κ × ν)) (k : κ) (v : ν) (q : κ) :
    q ∈ (upsertKV m k v).map Prod.fst ↔ q ∈ m.map Prod.fst ∨ q = k := by
  induction m with
  | nil => simp [upsertKV]
  | cons e rest ih =>
    unfold upsertKV
    by_cases he : e.1 = k
    · rw [if_pos (by simpa using he)]
      simp [he]
      tauto
    · rw [if_neg (by simpa using he)]
      simp only [List.map_cons, List.mem_cons, ih]
      tauto

theorem nodup_keys_upsertKV (m : List (κ × ν)) (k : κ) (v : ν)
    (h : (m.map Prod.fst).Nodup) : ((upsertKV m k v).map Prod.fst).Nodup := by
  induction m with
  | nil => simp [upsertKV]
  | cons e rest ih =>
    unfold upsertKV
    simp only [List.map_cons, List.nodup_cons] at h
    by_cases he : e.1 = k
    · rw [if_pos (by simpa using he)]
      simp only [List.map_cons, List.nodup_cons]
      exact ⟨he ▸ h.1, h.2⟩
    · rw [if_neg (by simpa using he)]
      simp only [List.map_cons, List.nodup_cons, mem_keys_upsertKV]
      refine ⟨?_, ih h.2⟩
      rintro (hc | hc)
      · exact h.1 hc
      · exact he hc

theorem assoc_ext (m₁ : List (κ × ν)) : ∀ m₂ : List (κ × ν),
    m₁.map Prod.fst = m₂.map Prod.fst → (m₁.map Prod.fst).Nodup →
    (∀ q, lookupKV m₁ q = lookupKV m₂ q) → m₁ = m₂ := by
  induction m₁ with
  | nil =>
    intro m₂ hk _ _
    cases m₂ with
    | nil => rfl
    | cons e r => simp at hk
  | cons e r ih =>
    intro m₂ hk hnd hl
    cases m₂ with
    | nil => simp at hk
    | cons e2 r2 =>
      simp only [List.map_cons, List.cons.injEq] at hk
      simp only [List.map_cons, List.nodup_cons] at hnd
      have hval : e.2 = e2.2 := by
        have := hl e.1
        rw [lookupKV_cons, lookupKV_cons, if_pos rfl, if_pos hk.1.symm] at this
        exact Option.some.inj this
      have hee : e = e2 := Prod.ext hk.1 hval
      subst hee
      congr 1
      apply ih r2 hk.2 hnd.2
      intro q
      by_cases hq : q = e.1
      · subst hq
        rw [lookupKV_eq_none_of_not_mem r e.1 hnd.1,
          lookupKV_eq_none_of_not_mem r2 e.1 (hk.2 ▸ hnd.1)]
      · have := hl q
        rw [lookupKV_cons, lookupKV_cons, if_neg (fun hc => hq hc.symm),
          if_neg (fun hc => hq hc.symm)] at this
        exact this

theorem lastWriteVal_foldl_init (q : κ) (ws : List (κ × ν)) :
    ∀ init : Option ν,
      ws.foldl (fun acc w => if w.1 == q then some w.2 else acc) init =
        match lastWriteVal ws q with
        | some v => some v
        | none => init := by
  induction ws with
  | nil => intro init; rfl
  | cons w ws ih =>
    intro init
    have hstep : ∀ i, List.foldl (fun acc w => if w.1 == q then some w.2 else acc)
        i (w :: ws) = List.foldl (fun acc w => if w.1 == q then some w.2 else acc)
        (if w.1 == q then some w.2 else i) ws := fun i => rfl
    rw [hstep]
    have hlw : lastWriteVal (w :: ws) q =
        match lastWriteVal ws q with
        | some v => some v
        | none => if w.1 == q then some w.2 else none := by
      unfold lastWriteVal
      rw [hstep]
      exact ih _
    rw [ih, hlw]
    cases lastWriteVal ws q with
    | none => by_cases hw : (w.1 == q) = true <;> simp [hw]
    | some v => rfl

theorem lookupKV_applyWrites (ws : List (κ × ν)) :
    ∀ (m : List (κ × ν)) (q : κ),
      lookupKV (applyWrites m ws) q =
        match lastWriteVal ws q with
        | some v => some v
        | none => lookupKV m q := by
  induction ws with
  | nil => intro m q; rfl
  | cons w ws ih =>
    intro m q
    have h1 : applyWrites m (w :: ws) = applyWrites (upsertKV m w.1 w.2) ws := rfl
    rw [h1, ih]
    have hlw : lastWriteVal (w :: ws) q =
        match lastWriteVal ws q with
        | some v => some v
        | none => if w.1 == q then some w.2 else none := by
      unfold lastWriteVal
      have hstep : List.foldl (fun acc w => if w.1 == q then some w.2 else acc)
          none (w :: ws) = List.foldl (fun acc w => if w.1 == q then some w.2 else acc)
          (if w.1 == q then some w.2 else none) ws := rfl
      rw [hstep]
      exact lastWriteVal_foldl_init q ws _
    rw [hlw]
    cases lastWriteVal ws q with
    | some v => rfl
    | none =>
      rw [lookupKV_upsertKV]
      by_cases hq : q = w.1
      · have hb : (w.1 == q) = true := by simpa using hq.symm
        simp [hq, hb]
      · have hb : (w.1 == q) = false := by simpa using fun hc => hq hc.symm
        simp [hq, hb]

theorem mem_keys_applyWrites_of (ws : List (κ × ν)) :
    ∀ (m : List (κ × ν)) (q : κ), q ∈ m.map Prod.fst →
      q ∈ (applyWrites m ws).map Prod.fst := by
  induction ws with
  | nil => intro m q h; exact h
  | cons w ws ih =>
    intro m q h
    exact ih _ q ((mem_keys_upsertKV m w.1 w.2 q).mpr (Or.inl h))

theorem mem_keys_applyWrites (ws : List (κ × ν)) :
    ∀ (m : List (κ × ν)) (w : κ × ν), w ∈ ws →
      w.1 ∈ (applyWrites m ws).map Prod.fst := by
  induction ws with
  | nil => intro m w h; simp at h
  | cons w0 ws ih =>
    intro m w h
    rcases List.mem_cons.mp h with rfl | h
    · exact mem_keys_applyWrites_of ws _ w.1
        ((mem_keys_upsertKV m w.1 w.2 w.1).mpr (Or.inr rfl))
    · exact ih _ w h

theorem keys_applyWrites_of_all_mem (ws : List (κ × ν)) :
    ∀ m : List (κ × ν), (∀ w ∈ ws, w.1 ∈ m.map Prod.fst) →
      (applyWrites m ws).map Prod.fst = m.map Prod.fst := by
  induction ws with
  | nil => intro m _; rfl
  | cons w ws ih =>
    intro m hall
    have h1 : applyWrites m (w :: ws) = applyWrites (upsertKV m w.1 w.2) ws := rfl
    rw [h1]
    have hkeys := keys_upsertKV_mem m w.1 w.2 (hall w (by simp))
    rw [ih _ (fun w2 hw2 => by rw [hkeys]; exact hall w2 (by simp [hw2])), hkeys]

theorem nodup_keys_applyWrites (ws : List (κ × ν)) :
    ∀ m : List (κ × ν), (m.map Prod.fst).Nodup →
      ((applyWrites m ws).map Prod.fst).Nodup := by
  induction ws with
  | nil => intro m h; exact h
  | cons w ws ih =>
    intro m h
    exact ih _ (nodup_keys_upsertKV m w.1 w.2 h)

theorem applyWrites_replay (ws : List (κ × ν)) (m : List (κ × ν))
    (hnd : (m.map Prod.fst).Nodup) :
    applyWrites (applyWrites m ws) ws = applyWrites m ws := by
  apply assoc_ext
  · exact keys_applyWrites_of_all_mem ws _ (fun w hw => mem_keys_applyWrites ws m w hw)
  · exact nodup_keys_applyWrites ws _ (nodup_keys_applyWrites ws m hnd)
  · intro q
    rw [lookupKV_applyWrites, lookupKV_applyWrites ws m q]
    cases lastWriteVal ws q with
    | some v => rfl
    | none => rfl

end KVLemmas

theorem any_fst_beq_iff (k : NodeId) (m : List (NodeId × NodeProps)) :
    (m.any (fun n => n.1 == k)) = true ↔ k ∈ m.map Prod.fst := by
  rw [List.any_eq_true]
  constructor
  · rintro ⟨x, hx, hb⟩
    have : x.1 = k := by simpa using hb
    exact this ▸ List.mem_map_of_mem Prod.fst hx
  · intro h
    rcases List.mem_map.mp h with ⟨x, hx, hfst⟩
    exact ⟨x, hx, by simp [hfst]⟩

theorem applyOp_mergeEdge_nodes (s : GraphState) (e : GEdge) :
    (applyOp s (.mergeEdge e)).nodes = s.nodes := by
  simp only [applyOp]
  split
  · split <;> rfl
  · rfl

theorem applyOp_mergeEdge_indexDim (s : GraphState) (e : GEdge) :
    (applyOp s (.mergeEdge e)).indexDim = s.indexDim := by
  simp only [applyOp]
  split
  · split <;> rfl
  · rfl

theorem nodes_applyOps (ops : List GraphOp) :
    ∀ s : GraphState, (applyOps s ops).nodes = applyWrites s.nodes (nodeWrites ops) := by
  induction ops with
  | nil => intro s; rfl
  | cons op rest ih =>
    intro s
    cases op with
    | mergeNode k p =>
      have h1 : applyOps s (GraphOp.mergeNode k p :: rest) =
          applyOps (applyOp s (.mergeNode k p)) rest := rfl
      rw [h1, ih]
      rfl
    | mergeEdge e =>
      have h1 : applyOps s (GraphOp.mergeEdge e :: rest) =
          applyOps (applyOp s (.mergeEdge e)) rest := rfl
      rw [h1, ih, applyOp_mergeEdge_nodes]
      rfl
    | vectorIndex d f =>
      have h1 : applyOps s (GraphOp.vectorIndex d f :: rest) =
          applyOps (applyOp s (.vectorIndex d f)) rest := rfl
      rw [h1, ih]
      rfl

theorem applyOps_edges_mono (ops : List GraphOp) :
    ∀ (s : GraphState) (e : GEdge), e ∈ s.edges → e ∈ (applyOps s ops).edges := by
  induction ops with
  | nil => intro s e h; exact h
  | cons op rest ih =>
    intro s e h
    apply ih
    cases op with
    | mergeNode k p => exact h
    | vectorIndex d f => exact h
    | mergeEdge e2 =>
      simp only [applyOp]
      split
      · split
        · exact h
        · simp only [List.mem_append]
          exact Or.inl h
      · exact h

theorem applyOp_mergeEdge_of_mem (s : GraphState) (e : GEdge) (h : e ∈ s.edges) :
    applyOp s (.mergeEdge e) = s := by
  simp only [applyOp]
  split
  · rw [if_pos (List.elem_eq_true_of_mem h)]
  · rfl

theorem edges_applyOps_of_present (ops : List GraphOp) :
    ∀ s : GraphState, (∀ e, GraphOp.mergeEdge e ∈ ops → e ∈ s.edges) →
      (applyOps s ops).edges = s.edges := by
  induction ops with
  | nil => intro s _; rfl
  | cons op rest ih =>
    intro s hall
    cases op with
    | mergeNode k p =>
      have h1 : applyOps s (GraphOp.mergeNode k p :: rest) =
          applyOps (applyOp s (.mergeNode k p)) rest := rfl
      rw [h1, ih (applyOp s (.mergeNode k p)) (fun e he => hall e (by simp [he]))]
      rfl
    | vectorIndex d f =>
      have h1 : applyOps s (GraphOp.vectorIndex d f :: rest) =
          applyOps (applyOp s (.vectorIndex d f)) rest := rfl
      rw [h1, ih (applyOp s (.vectorIndex d f)) (fun e he => hall e (by simp [he]))]
      rfl
    | mergeEdge e =>
      have hmem : e ∈ s.edges := hall e (by simp)
      have h1 : applyOps s (GraphOp.mergeEdge e :: rest) =
          applyOps (applyOp s (.mergeEdge e)) rest := rfl
      rw [h1, applyOp_mergeEdge_of_mem s e hmem]
      exact ih s (fun e2 he2 => hall e2 (by simp [he2]))

theorem nodup_edges_applyOps (ops : List GraphOp) :
    ∀ s : GraphState, s.edges.Nodup → (applyOps s ops).edges.Nodup := by
  induction ops with
  | nil => intro s h; exact h
  | cons op rest ih =>
    intro s h
    apply ih
    cases op with
    | mergeNode k p => exact h
    | vectorIndex d f => exact h
    | mergeEdge e =>
      simp only [applyOp]
      split
      · split
        · exact h
        · rename_i hnc
          have hne : e ∉ s.edges := fun hc => hnc (List.elem_eq_true_of_mem hc)
          rw [List.nodup_append]
          refine ⟨h, List.nodup_singleton e, ?_⟩
          intro a ha
          simp only [List.mem_singleton]
          exact fun hae => hne (hae ▸ ha)
      · exact h

theorem wf_mono (ops : List GraphOp) :
    ∀ h h2 : List NodeId, (∀ x ∈ h, x ∈ h2) →
      OpsWellFormed h ops → OpsWellFormed h2 ops := by
  induction ops with
  | nil => intro h h2 _ _; trivial
  | cons op rest ih =>
    intro h h2 hsub hwf
    cases op with
    | mergeNode k p =>
      exact ih (k :: h) (k :: h2)
        (fun x hx => by
          rcases List.mem_cons.mp hx with rfl | hx
          · exact List.mem_cons_self _ _
          · exact List.mem_cons_of_mem _ (hsub x hx)) hwf
    | mergeEdge e =>
      obtain ⟨h1, h2', h3⟩ := hwf
      exact ⟨hsub _ h1, hsub _ h2', ih h h2 hsub h3⟩
    | vectorIndex d f => exact ih h h2 hsub hwf

theorem afterKeys_cons_node (h : List NodeId) (k : NodeId) (p : NodeProps)
    (rest : List GraphOp) :
    afterKeys h (GraphOp.mergeNode k p :: rest) = afterKeys (k :: h) rest := rfl

theorem afterKeys_cons_edge (h : List NodeId) (e : GEdge) (rest : List GraphOp) :
    afterKeys h (GraphOp.mergeEdge e :: rest) = afterKeys h rest := rfl

theorem afterKeys_cons_vidx (h : List NodeId) (d : Nat) (f : String)
    (rest : List GraphOp) :
    afterKeys h (GraphOp.vectorIndex d f :: rest) = afterKeys h rest := rfl

theorem wf_append (l₁ : List GraphOp) :
    ∀ (l₂ : List GraphOp) (h : List NodeId),
      OpsWellFormed h (l₁ ++ l₂) ↔
        OpsWellFormed h l₁ ∧ OpsWellFormed (afterKeys h l₁) l₂ := by
  induction l₁ with
  | nil => intro l₂ h; simp [OpsWellFormed, afterKeys]
  | cons op rest ih =>
    intro l₂ h
    cases op with
    | mergeNode k p =>
      simp only [List.cons_append, OpsWellFormed, afterKeys_cons_node]
      exact ih l₂ (k :: h)
    | mergeEdge e =>
      simp only [List.cons_append, List.append_eq, OpsWellFormed, afterKeys_cons_edge,
        ih l₂ h]
      tauto
    | vectorIndex d f =>
      simp only [List.cons_append, OpsWellFormed, afterKeys_cons_vidx]
      exact ih l₂ h

theorem afterKeys_extends (l : List GraphOp) :
    ∀ (h : List NodeId) (x : NodeId), x ∈ h → x ∈ afterKeys h l := by
  induction l with
  | nil => intro h x hx; exact hx
  | cons op rest ih =>
    intro h x hx
    cases op with
    | mergeNode k p =>
      rw [afterKeys_cons_node]
      exact ih (k :: h) x (List.mem_cons_of_mem _ hx)
    | mergeEdge e => rw [afterKeys_cons_edge]; exact ih h x hx
    | vectorIndex d f => rw [afterKeys_cons_vidx]; exact ih h x hx

theorem afterKeys_append (l₁ : List GraphOp) :
    ∀ (l₂ : List GraphOp) (h : List NodeId),
      afterKeys h (l₁ ++ l₂) = afterKeys (afterKeys h l₁) l₂ := by
  induction l₁ with
  | nil => intro l₂ h; rfl
  | cons op rest ih =>
    intro l₂ h
    cases op <;>
      simp only [List.cons_append, afterKeys_cons_node, afterKeys_cons_edge,
        afterKeys_cons_vidx] <;>
      exact ih l₂ _

theorem wf_flatten (parts : List (List GraphOp)) :
    ∀ h : List NodeId, (∀ p ∈ parts, OpsWellFormed h p) →
      OpsWellFormed h parts.flatten := by
  induction parts with
  | nil => intro h _; trivial
  | cons p rest ih =>
    intro h hall
    rw [List.flatten_cons, wf_append]
    refine ⟨hall p (by simp), ?_⟩
    exact wf_mono _ h _ (afterKeys_extends p h) (ih h (fun p2 hp2 => hall p2 (by simp [hp2])))

theorem wf_edges_all_fired (ops : List GraphOp) :
    ∀ s : GraphState, OpsWellFormed (s.nodes.map Prod.fst) ops →
      ∀ e, GraphOp.mergeEdge e ∈ ops → e ∈ (applyOps s ops).edges := by
  induction ops with
  | nil => intro s _ e he; simp at he
  | cons op rest ih =>
    intro s hwf e he
    cases op with
    | mergeNode k p =>
      have h1 : applyOps s (GraphOp.mergeNode k p :: rest) =
          applyOps (applyOp s (.mergeNode k p)) rest := rfl
      rw [h1]
      have hkeys : ∀ x ∈ k :: s.nodes.map Prod.fst,
          x ∈ (applyOp s (.mergeNode k p)).nodes.map Prod.fst := by
        intro x hx
        show x ∈ (upsertKV s.nodes k p).map Prod.fst
        rw [mem_keys_upsertKV]
        rcases List.mem_cons.mp hx with rfl | hx
        · exact Or.inr rfl
        · exact Or.inl hx
      have hwf2 := wf_mono rest _ _ hkeys hwf
      have hmem : GraphOp.mergeEdge e ∈ rest := by
        rcases List.mem_cons.mp he with hc | hc
        · exact absurd hc (by simp)
        · exact hc
      exact ih _ hwf2 e hmem
    | vectorIndex d f =>
      have h1 : applyOps s (GraphOp.vectorIndex d f :: rest) =
          applyOps (applyOp s (.vectorIndex d f)) rest := rfl
      rw [h1]
      have hmem : GraphOp.mergeEdge e ∈ rest := by
        rcases List.mem_cons.mp he with hc | hc
        · exact absurd hc (by simp)
        · exact hc
      exact ih (applyOp s (.vectorIndex d f)) hwf e hmem
    | mergeEdge e2 =>
      obtain ⟨hsrc, hdst, hwf2⟩ := hwf
      have hguard : (s.nodes.any (fun n => n.1 == e2.src)) = true ∧
          (s.nodes.any (fun n => n.1 == e2.dst)) = true :=
        ⟨(any_fst_beq_iff _ _).mpr hsrc, (any_fst_beq_iff _ _).mpr hdst⟩
      have hafter : e2 ∈ (applyOp s (.mergeEdge e2)).edges := by
        simp only [applyOp]
        rw [if_pos (by rw [hguard.1, hguard.2]; rfl)]
        split
        · rename_i hc
          exact List.mem_of_elem_eq_true hc
        · simp
      have hnodes : (applyOp s (.mergeEdge e2)).nodes = s.nodes :=
        applyOp_mergeEdge_nodes s e2
      have h1 : applyOps s (GraphOp.mergeEdge e2 :: rest) =
          applyOps (applyOp s (.mergeEdge e2)) rest := rfl
      rw [h1]
      rcases List.mem_cons.mp he with hc | hc
      · have : e = e2 := by injection hc
        subst this
        exact applyOps_edges_mono rest _ e hafter
      · exact ih _ (by rw [hnodes]; exact hwf2) e hc

theorem lastVIdx_foldl_init (ops : List GraphOp) :
    ∀ init : Option (Nat × String),
      ops.foldl (fun acc op => match op with
        | .vectorIndex d f => some (d, f)
        | _ => acc) init =
      match lastVIdx ops with
      | some d => some d
      | none => init := by
  induction ops with
  | nil => intro init; rfl
  | cons op rest ih =>
    intro init
    have h1 : List.foldl (fun acc op => match op with
        | GraphOp.vectorIndex d f => some (d, f)
        | _ => acc) init (op :: rest) =
      List.foldl (fun acc op => match op with
        | GraphOp.vectorIndex d f => some (d, f)
        | _ => acc) ((fun acc op => match op with
        | GraphOp.vectorIndex d f => some (d, f)
        | _ => acc) init op) rest := rfl
    have h0 : lastVIdx (op :: rest) =
      List.foldl (fun acc op => match op with
        | GraphOp.vectorIndex d f => some (d, f)
        | _ => acc) ((fun acc op => match op with
        | GraphOp.vectorIndex d f => some (d, f)
        | _ => acc) none op) rest := rfl
    rw [h1, ih ((fun acc op => match op with
        | GraphOp.vectorIndex d f => some (d, f)
        | _ => acc) init op), h0, ih ((fun acc op => match op with
        | GraphOp.vectorIndex d f => some (d, f)
        | _ => acc) none op)]
    cases lastVIdx rest with
    | some v => rfl
    | none => cases op <;> rfl

theorem indexDim_applyOps (ops : List GraphOp) :
    ∀ s : GraphState, (applyOps s ops).indexDim =
      match lastVIdx ops with
      | some d => some d
      | none => s.indexDim := by
  induction ops with
  | nil => intro s; rfl
  | cons op rest ih =>
    intro s
    have h1 : applyOps s (op :: rest) = applyOps (applyOp s op) rest := rfl
    rw [h1, ih]
    have h0 : lastVIdx (op :: rest) =
      List.foldl (fun acc op => match op with
        | GraphOp.vectorIndex d f => some (d, f)
        | _ => acc) ((fun acc op => match op with
        | GraphOp.vectorIndex d f => some (d, f)
        | _ => acc) none op) rest := rfl
    rw [h0, lastVIdx_foldl_init rest ((fun acc op => match op with
        | GraphOp.vectorIndex d f => some (d, f)
        | _ => acc) none op)]
    cases lastVIdx rest with
    | some v => rfl
    | none =>
      cases op with
      | mergeNode k p => rfl
      | vectorIndex d f => rfl
      | mergeEdge e => rw [applyOp_mergeEdge_indexDim]

theorem graphState_eq (s t : GraphState) (hn : s.nodes = t.nodes)
    (he : s.edges = t.edges) (hi : s.indexDim = t.indexDim) : s = t := by
  cases s
  cases t
  simp only at hn he hi
  simp [hn, he, hi]

theorem mem_partInsert {α : Type} (x p : String × α) :
    ∀ l : List (String × α), p ∈ partInsert x l ↔ p = x ∨ p ∈ l := by
  intro l
  induction l with
  | nil => simp [partInsert]
  | cons y ys ih =>
    unfold partInsert
    split
    · simp only [List.mem_cons, ih]
      tauto
    · simp [List.mem_cons]

theorem mem_sortParts {α : Type} (p : String × α) :
    ∀ l : List (String × α), p ∈ sortParts l ↔ p ∈ l := by
  intro l
  induction l with
  | nil => simp [sortParts]
  | cons x xs ih =>
    unfold sortParts
    rw [mem_partInsert, ih]
    simp [List.mem_cons]

theorem mem_processForest (cfg : LoaderCfg) :
    (f : DirForest) → ∀ (curPath : List String) (pid : NodeId) (plvl : Option Nat)
      (p : String × (List GraphOp × List LvEntry)),
      p ∈ processForest cfg f curPath pid plvl →
      ∃ d ∈ f.toList, p = (d.name, processTree cfg d curPath pid plvl)
  | .nil => by
    intro _ _ _ p hp
    rw [processForest] at hp
    simp at hp
  | .cons d rest => by
    intro curPath pid plvl p hp
    rw [processForest] at hp
    rcases List.mem_cons.mp hp with rfl | hp
    · exact ⟨d, by simp [DirForest.toList], rfl⟩
    · rcases mem_processForest cfg rest curPath pid plvl p hp with ⟨d2, hd2, heq⟩
      exact ⟨d2, by simp [DirForest.toList, hd2], heq⟩

theorem sizeOf_mem_toList :
    (f : DirForest) → ∀ d ∈ f.toList, sizeOf d < sizeOf f
  | .nil => by
    intro d hd
    rw [DirForest.toList] at hd
    simp at hd
  | .cons head tail => by
    intro d hd
    rw [DirForest.toList] at hd
    rcases List.mem_cons.mp hd with rfl | hd
    · simp only [DirForest.cons.sizeOf_spec]
      omega
    · have := sizeOf_mem_toList tail d hd
      simp only [DirForest.cons.sizeOf_spec]
      omega

theorem sizeOf_subs_lt (name : String) (content : Option String) (subs : DirForest) :
    sizeOf subs < sizeOf (DirTree.node name content subs) := by
  simp only [DirTree.node.sizeOf_spec]
  omega

theorem pcf_wf (pid : NodeId) (embd : String → Option (List Float)) :
    ∀ (chunks : List String) (idx : Nat) (h : List NodeId),
      pid ∈ h → (0 < idx → chunkId pid (idx - 1) ∈ h) →
      OpsWellFormed h (pcfGo pid embd idx chunks) := by
  intro chunks
  induction chunks with
  | nil => intro idx h _ _; trivial
  | cons c rest ih =>
    intro idx h hpid hprev
    by_cases hidx : idx = 0
    · subst hidx
      have hlist : pcfGo pid embd 0 (c :: rest) =
          GraphOp.mergeNode (chunkId pid 0)
              (.chunk c (match embd c with
                | some v => v
                | none => List.replicate 1536 0.0) 0)
            :: GraphOp.mergeEdge ⟨pid, chunkId pid 0, "HAS_CHILD"⟩
            :: pcfGo pid embd 1 rest := by
        simp [pcfGo]
      rw [hlist]
      simp only [OpsWellFormed]
      refine ⟨List.mem_cons_of_mem _ hpid, List.mem_cons_self _ _, ?_⟩
      exact ih 1 _ (List.mem_cons_of_mem _ hpid)
        (fun _ => List.mem_cons_self _ _)
    · have hpos : 0 < idx := Nat.pos_of_ne_zero hidx
      have hlist : pcfGo pid embd idx (c :: rest) =
          GraphOp.mergeNode (chunkId pid idx)
              (.chunk c (match embd c with
                | some v => v
                | none => List.replicate 1536 0.0) idx)
            :: GraphOp.mergeEdge ⟨chunkId pid (idx - 1), chunkId pid idx, "NEXT"⟩
            :: pcfGo pid embd (idx + 1) rest := by
        simp [pcfGo, hidx, hpos]
      rw [hlist]
      simp only [OpsWellFormed]
      refine ⟨List.mem_cons_of_mem _ (hprev hpos), List.mem_cons_self _ _, ?_⟩
      refine ih (idx + 1) _ (List.mem_cons_of_mem _ hpid) (fun _ => ?_)
      have : idx + 1 - 1 = idx := by omega
      rw [this]
      exact List.mem_cons_self _ _

theorem edgeOpsOf_wf (pid nid : NodeId) (plvl : Option Nat) (level : Nat)
    (h : List NodeId) (hpid : pid ∈ h) (hnid : nid ∈ h) :
    OpsWellFormed h (edgeOpsOf pid nid plvl level) := by
  cases plvl with
  | none => exact ⟨hpid, hnid, trivial⟩
  | some pl =>
    by_cases hl : level = pl + 1
    · rw [edgeOpsOf, if_pos hl]
      exact ⟨hpid, hnid, trivial⟩
    · rw [edgeOpsOf, if_neg hl]
      trivial

theorem contentOpsOf_wf (cfg : LoaderCfg) (nid : NodeId)
    (content : Option String) (h : List NodeId) (hnid : nid ∈ h) :
    OpsWellFormed h (contentOpsOf cfg nid content) := by
  cases content with
  | none => trivial
  | some text =>
    exact pcf_wf nid cfg.embed (cfg.split text) 0 h hnid
      (fun hc => absurd hc (by omega))

theorem processTree_eq_conforming (cfg : LoaderCfg) (name : String)
    (content : Option String) (subs : DirForest) (curPath : List String)
    (pid : NodeId) (plvl : Option Nat) (level order : Nat) (nm : String)
    (num : Option String)
    (hp : parseFolderName name = (some level, some order, nm, num)) :
    processTree cfg (.node name content subs) curPath pid plvl =
      (GraphOp.mergeNode (NodeId.path (curPath ++ [name]))
          (.heading (levelLabel cfg.levelLabels level) cfg.metaLabel nm num)
        :: (edgeOpsOf pid (NodeId.path (curPath ++ [name])) plvl level
          ++ contentOpsOf cfg (NodeId.path (curPath ++ [name])) content
          ++ ((sortParts (processForest cfg subs (curPath ++ [name])
                (NodeId.path (curPath ++ [name])) (some level))).map
              (fun p => p.2.1)).flatten),
       (level, order, NodeId.path (curPath ++ [name]), nm)
        :: ((sortParts (processForest cfg subs (curPath ++ [name])
              (NodeId.path (curPath ++ [name])) (some level))).map
            (fun p => p.2.2)).flatten) := by
  rw [processTree, hp]
  rfl

theorem processTree_wf (cfg : LoaderCfg) :
    ∀ (n : Nat) (d : DirTree), sizeOf d ≤ n →
      ∀ (curPath : List String) (pid : NodeId) (plvl : Option Nat) (h : List NodeId),
        pid ∈ h → OpsWellFormed h (processTree cfg d curPath pid plvl).1 := by
  intro n
  induction n with
  | zero =>
    intro d hd
    cases d with
    | node name content subs =>
      simp only [DirTree.node.sizeOf_spec] at hd
      omega
  | succ n ih =>
    intro d hd curPath pid plvl h hpid
    cases d with
    | node name content subs =>
      rcases hp : parseFolderName name with ⟨lv, od, nm, num⟩
      cases lv with
      | none =>
        rw [processTree_nonconforming cfg _ curPath pid plvl (by simp [DirTree.name, hp])]
        trivial
      | some level =>
        cases od with
        | none =>
          have : processTree cfg (.node name content subs) curPath pid plvl = ([], []) := by
            rw [processTree, hp]
          rw [this]
          trivial
        | some order =>
          rw [processTree_eq_conforming cfg name content subs curPath pid plvl
            level order nm num hp]
          simp only [OpsWellFormed]
          have hnidmem : NodeId.path (curPath ++ [name]) ∈
              NodeId.path (curPath ++ [name]) :: h := List.mem_cons_self _ _
          refine (wf_append _ _ _).mpr ⟨(wf_append _ _ _).mpr ⟨?_, ?_⟩, ?_⟩
          · exact edgeOpsOf_wf pid _ plvl level _
              (List.mem_cons_of_mem _ hpid) hnidmem
          · exact contentOpsOf_wf cfg _ content _
              (afterKeys_extends _ _ _ hnidmem)
          · apply wf_flatten
            intro p hpmem
            rcases List.mem_map.mp hpmem with ⟨part, hpart, rfl⟩
            rcases mem_processForest cfg subs _ _ _ part
              ((mem_sortParts part _).mp hpart) with ⟨d2, hd2, rfl⟩
            have hsize : sizeOf d2 ≤ n := by
              have h1 := sizeOf_mem_toList subs d2 hd2
              have h2 := sizeOf_subs_lt name content subs
              simp only [DirTree.node.sizeOf_spec] at hd
              omega
            exact ih d2 hsize _ _ (some level) _
              (afterKeys_extends _ _ _ hnidmem)

theorem processDirOps_wf (cfg : LoaderCfg) (subs : DirForest)
    (curPath : List String) (pid : NodeId) (plvl : Option Nat)
    (h : List NodeId) (hpid : pid ∈ h) :
    OpsWellFormed h (processDirOps cfg subs curPath pid plvl).1 := by
  show OpsWellFormed h
    ((sortParts (processForest cfg subs curPath pid plvl)).map
      (fun p => p.2.1)).flatten
  apply wf_flatten
  intro p hpmem
  rcases List.mem_map.mp hpmem with ⟨part, hpart, rfl⟩
  rcases mem_processForest cfg subs _ _ _ part
    ((mem_sortParts part _).mp hpart) with ⟨d2, _, rfl⟩
  exact processTree_wf cfg (sizeOf d2) d2 le_rfl curPath pid plvl h hpid

theorem mem_afterKeys_of_mergeNode (l : List GraphOp) :
    ∀ (h : List NodeId) (k : NodeId) (p : NodeProps),
      GraphOp.mergeNode k p ∈ l → k ∈ afterKeys h l := by
  induction l with
  | nil => intro h k p hk; simp at hk
  | cons op rest ih =>
    intro h k p hk
    rcases List.mem_cons.mp hk with heq | hk2
    · rw [← heq, afterKeys_cons_node]
      exact afterKeys_extends rest (k :: h) k (List.mem_cons_self _ _)
    · cases op with
      | mergeNode k2 p2 => rw [afterKeys_cons_node]; exact ih _ k p hk2
      | mergeEdge e => rw [afterKeys_cons_edge]; exact ih _ k p hk2
      | vectorIndex d f => rw [afterKeys_cons_vidx]; exact ih _ k p hk2

theorem processForest_mem_of (cfg : LoaderCfg) :
    (f : DirForest) → ∀ (curPath : List String) (pid : NodeId) (plvl : Option Nat)
      (d : DirTree), d ∈ f.toList →
      (d.name, processTree cfg d curPath pid plvl) ∈
        processForest cfg f curPath pid plvl
  | .nil => by
    intro _ _ _ d hd
    rw [DirForest.toList] at hd
    simp at hd
  | .cons head tail => by
    intro curPath pid plvl d hd
    rw [DirForest.toList] at hd
    rw [processForest]
    rcases List.mem_cons.mp hd with rfl | hd
    · exact List.mem_cons_self _ _
    · exact List.mem_cons_of_mem _
        (processForest_mem_of cfg tail curPath pid plvl d hd)

theorem entry_mergeNode_processTree (cfg : LoaderCfg) :
    ∀ (n : Nat) (d : DirTree), sizeOf d ≤ n →
      ∀ (curPath : List String) (pid : NodeId) (plvl : Option Nat) (en : LvEntry),
        en ∈ (processTree cfg d curPath pid plvl).2 →
        ∃ props, GraphOp.mergeNode en.2.2.1 props ∈
          (processTree cfg d curPath pid plvl).1 := by
  intro n
  induction n with
  | zero =>
    intro d hd
    cases d with
    | node name content subs =>
      simp only [DirTree.node.sizeOf_spec] at hd
      omega
  | succ n ih =>
    intro d hd curPath pid plvl en hen
    cases d with
    | node name content subs =>
      rcases hp : parseFolderName name with ⟨lv, od, nm, num⟩
      cases lv with
      | none =>
        rw [processTree_nonconforming cfg _ curPath pid plvl
          (by simp [DirTree.name, hp])] at hen ⊢
        simp at hen
      | some level =>
        cases od with
        | none =>
          have hz : processTree cfg (.node name content subs) curPath pid plvl
              = ([], []) := by
            rw [processTree, hp]
          rw [hz] at hen ⊢
          simp at hen
        | some order =>
          rw [processTree_eq_conforming cfg name content subs curPath pid plvl
            level order nm num hp] at hen ⊢
          simp only at hen ⊢
          rcases List.mem_cons.mp hen with rfl | hen
          · exact ⟨.heading (levelLabel cfg.levelLabels level) cfg.metaLabel nm num,
              List.mem_cons_self _ _⟩
          · rcases List.mem_flatten.mp hen with ⟨part2, hpart2, henp⟩
            rcases List.mem_map.mp hpart2 with ⟨part, hpart, rfl⟩
            have hpartf := (mem_sortParts part _).mp hpart
            rcases mem_processForest cfg subs _ _ _ part hpartf with ⟨d2, hd2, rfl⟩
            have hsize : sizeOf d2 ≤ n := by
              have h1 := sizeOf_mem_toList subs d2 hd2
              have h2 := sizeOf_subs_lt name content subs
              simp only [DirTree.node.sizeOf_spec] at hd
              omega
            rcases ih d2 hsize _ _ (some level) en henp with ⟨props, hprops⟩
            refine ⟨props, List.mem_cons_of_mem _ ?_⟩
            refine List.mem_append.mpr (Or.inr ?_)
            refine List.mem_flatten.mpr ⟨(processTree cfg d2 (curPath ++ [name])
              (NodeId.path (curPath ++ [name])) (some level)).1, ?_, hprops⟩
            exact List.mem_map.mpr ⟨_, hpart, rfl⟩

theorem entry_mergeNode_processDirOps (cfg : LoaderCfg) (subs : DirForest)
    (curPath : List String) (pid : NodeId) (plvl : Option Nat) (en : LvEntry)
    (hen : en ∈ (processDirOps cfg subs curPath pid plvl).2) :
    ∃ props, GraphOp.mergeNode en.2.2.1 props ∈
      (processDirOps cfg subs curPath pid plvl).1 := by
  have hen2 : en ∈ ((sortParts (processForest cfg subs curPath pid plvl)).map
      (fun p => p.2.2)).flatten := hen
  rcases List.mem_flatten.mp hen2 with ⟨part2, hpart2, henp⟩
  rcases List.mem_map.mp hpart2 with ⟨part, hpart, rfl⟩
  rcases mem_processForest cfg subs _ _ _ part
    ((mem_sortParts part _).mp hpart) with ⟨d2, _, rfl⟩
  rcases entry_mergeNode_processTree cfg (sizeOf d2) d2 le_rfl curPath pid plvl
    en henp with ⟨props, hprops⟩
  refine ⟨props, ?_⟩
  show GraphOp.mergeNode en.2.2.1 props ∈
    ((sortParts (processForest cfg subs curPath pid plvl)).map
      (fun p => p.2.1)).flatten
  refine List.mem_flatten.mpr ⟨(processTree cfg d2 curPath pid plvl).1, ?_, hprops⟩
  exact List.mem_map.mpr ⟨_, hpart, rfl⟩

theorem secondPass_mem (entries : List LvEntry) (op : GraphOp)
    (hop : op ∈ secondPassOps entries) :
    ∃ en1 en2, en1 ∈ entries ∧ en2 ∈ entries ∧
      op = .mergeEdge ⟨en1.2.2.1, en2.2.2.1, "NEXT"⟩ := by
  rw [secondPassOps] at hop
  rcases List.mem_flatMap.mp hop with ⟨lv, _, hchain⟩
  rcases List.mem_map.mp hchain with ⟨pr, hpr, rfl⟩
  have hz := List.of_mem_zip hpr
  have h1 : pr.1 ∈ sortByOrder (entriesForLevel entries lv) := hz.1
  have h2 : pr.2 ∈ sortByOrder (entriesForLevel entries lv) :=
    List.tail_subset _ hz.2
  have h1e : pr.1 ∈ entriesForLevel entries lv :=
    (perm_sortByOrder _).mem_iff.mp h1
  have h2e : pr.2 ∈ entriesForLevel entries lv :=
    (perm_sortByOrder _).mem_iff.mp h2
  rcases List.mem_map.mp h1e with ⟨en1, hen1, he1⟩
  rcases List.mem_map.mp h2e with ⟨en2, hen2, he2⟩
  refine ⟨en1, en2, List.mem_of_mem_filter hen1, List.mem_of_mem_filter hen2, ?_⟩
  rw [← he1, ← he2]

theorem wf_of_edges (l : List GraphOp) (h : List NodeId)
    (hall : ∀ op ∈ l, ∃ e, op = .mergeEdge e ∧ e.src ∈ h ∧ e.dst ∈ h) :
    OpsWellFormed h l := by
  induction l with
  | nil => trivial
  | cons op rest ih =>
    rcases hall op (List.mem_cons_self _ _) with ⟨e, rfl, hsrc, hdst⟩
    exact ⟨hsrc, hdst, ih (fun op2 hop2 => hall op2 (List.mem_cons_of_mem _ hop2))⟩

theorem createLexicalGraphOps_eq (cfg : LoaderCfg) (root : DirTree)
    (vd : Nat) (vf : String) :
    createLexicalGraphOps cfg root vd vf =
      GraphOp.vectorIndex vd vf
        :: GraphOp.mergeNode (NodeId.path [root.name]) (.doc root.name)
        :: (contentOpsOf cfg (NodeId.path [root.name]) root.content
          ++ (processDirOps cfg root.subs [root.name]
              (NodeId.path [root.name]) none).1
          ++ secondPassOps (processDirOps cfg root.subs [root.name]
              (NodeId.path [root.name]) none).2) := rfl

theorem createLexicalGraphOps_wf (cfg : LoaderCfg) (root : DirTree)
    (vd : Nat) (vf : String) :
    OpsWellFormed [] (createLexicalGraphOps cfg root vd vf) := by
  rw [createLexicalGraphOps_eq]
  simp only [OpsWellFormed]
  have hdoc : NodeId.path [root.name] ∈ [NodeId.path [root.name]] :=
    List.mem_cons_self _ _
  refine (wf_append _ _ _).mpr ⟨(wf_append _ _ _).mpr ⟨?_, ?_⟩, ?_⟩
  · exact contentOpsOf_wf cfg _ root.content _ hdoc
  · exact processDirOps_wf cfg root.subs [root.name] _ none _
      (afterKeys_extends _ _ _ hdoc)
  · apply wf_of_edges
    intro op hop
    rcases secondPass_mem _ op hop with ⟨en1, en2, hen1, hen2, rfl⟩
    rcases entry_mergeNode_processDirOps cfg root.subs [root.name] _ none
      en1 hen1 with ⟨p1, hp1⟩
    rcases entry_mergeNode_processDirOps cfg root.subs [root.name] _ none
      en2 hen2 with ⟨p2, hp2⟩
    refine ⟨_, rfl, ?_, ?_⟩
    · rw [afterKeys_append]
      exact mem_afterKeys_of_mergeNode _ _ _ p1 hp1
    · rw [afterKeys_append]
      exact mem_afterKeys_of_mergeNode _ _ _ p2 hp2

/-- C2: replaying the whole pipeline on the same input is a no-op. The
builder's file writes are whole-file overwrites, so applying the write
list twice leaves the same file store as applying it once; and a second
`create_lexical_graph` run over the same materialized hierarchy leaves
the loaded graph state exactly as the first run left it — the first run's
node table is duplicate-free (ids are deterministic functions of the
storage path or of parent id and chunk index, and node writes are
merge-by-id upserts), its edge list is duplicate-free, and every node,
edge and index write of the second run merges into an existing entry. -/
theorem c2_idempotent_rerun (cfg : LoaderCfg) (root : DirTree) (vd : Nat)
    (vf : String) (fsRoot : List String) (text : String) :
    applyOps (applyOps GraphState.empty (createLexicalGraphOps cfg root vd vf))
        (createLexicalGraphOps cfg root vd vf) =
      applyOps GraphState.empty (createLexicalGraphOps cfg root vd vf) ∧
    ((applyOps GraphState.empty
        (createLexicalGraphOps cfg root vd vf)).nodes.map Prod.fst).Nodup ∧
    (applyOps GraphState.empty (createLexicalGraphOps cfg root vd vf)).edges.Nodup ∧
    applyWrites (applyWrites [] (extractHierarchyWrites fsRoot text))
        (extractHierarchyWrites fsRoot text) =
      applyWrites [] (extractHierarchyWrites fsRoot text) := by
  set ops := createLexicalGraphOps cfg root vd vf with hops
  set s₁ := applyOps GraphState.empty ops with hs₁
  have hwf : OpsWellFormed (GraphState.empty.nodes.map Prod.fst) ops :=
    createLexicalGraphOps_wf cfg root vd vf
  have hnodes1 : s₁.nodes = applyWrites [] (nodeWrites ops) := by
    rw [hs₁, nodes_applyOps]
    rfl
  refine ⟨?_, ?_, ?_, ?_⟩
  · apply graphState_eq
    · calc (applyOps s₁ ops).nodes
          = applyWrites s₁.nodes (nodeWrites ops) := nodes_applyOps ops s₁
        _ = applyWrites (applyWrites [] (nodeWrites ops)) (nodeWrites ops) := by
            rw [hnodes1]
        _ = applyWrites [] (nodeWrites ops) := applyWrites_replay _ _ (by simp)
        _ = s₁.nodes := hnodes1.symm
    · refine edges_applyOps_of_present ops s₁ ?_
      intro e he
      have := wf_edges_all_fired ops GraphState.empty hwf e he
      rw [← hs₁] at this
      exact this
    · have h1 : s₁.indexDim =
          match lastVIdx ops with
          | some d => some d
          | none => GraphState.empty.indexDim := by
        rw [hs₁]
        exact indexDim_applyOps ops GraphState.empty
      rw [indexDim_applyOps ops s₁, h1]
      cases lastVIdx ops <;> rfl
  · rw [hnodes1]
    exact nodup_keys_applyWrites _ _ (by simp)
  · rw [hs₁]
    exact nodup_edges_applyOps ops GraphState.empty List.nodup_nil
  · exact applyWrites_replay _ _ (by simp)

theorem mem_visitForest :
    (f : DirForest) → ∀ (curPath : List String) (pid : NodeId) (plvl : Option Nat)
      (v : Visit),
      v ∈ visitForest f curPath pid plvl ↔
        ∃ d ∈ f.toList, v ∈ visitTree d curPath pid plvl
  | .nil => by
    intro curPath pid plvl v
    rw [visitForest, DirForest.toList]
    simp
  | .cons head tail => by
    intro curPath pid plvl v
    rw [visitForest, List.mem_append, mem_visitForest tail curPath pid plvl v,
      DirForest.toList]
    constructor
    · rintro (h | ⟨d, hd, hvd⟩)
      · exact ⟨head, List.mem_cons_self _ _, h⟩
      · exact ⟨d, List.mem_cons_of_mem _ hd, hvd⟩
    · rintro ⟨d, hd, hvd⟩
      rcases List.mem_cons.mp hd with rfl | hd
      · exact Or.inl hvd
      · exact Or.inr ⟨d, hd, hvd⟩

theorem pcfGo_edge_dst (pid : NodeId) (embd : String → Option (List Float)) :
    ∀ (chunks : List String) (idx : Nat) (e : GEdge),
      GraphOp.mergeEdge e ∈ pcfGo pid embd idx chunks →
      ∃ j, e.dst = chunkId pid j := by
  intro chunks
  induction chunks with
  | nil =>
    intro idx e he
    rw [pcfGo] at he
    simp at he
  | cons c rest ih =>
    intro idx e he
    by_cases hidx : idx = 0
    · subst hidx
      have hlist : pcfGo pid embd 0 (c :: rest) =
          GraphOp.mergeNode (chunkId pid 0)
              (.chunk c (match embd c with
                | some v => v
                | none => List.replicate 1536 0.0) 0)
            :: GraphOp.mergeEdge ⟨pid, chunkId pid 0, "HAS_CHILD"⟩
            :: pcfGo pid embd 1 rest := by
        simp [pcfGo]
      rw [hlist] at he
      rcases List.mem_cons.mp he with hc | he
      · exact absurd hc (by simp)
      rcases List.mem_cons.mp he with hc | he
      · injection hc with hc2
        exact ⟨0, by rw [hc2]⟩
      · exact ih 1 e he
    · have hpos : 0 < idx := Nat.pos_of_ne_zero hidx
      have hlist : pcfGo pid embd idx (c :: rest) =
          GraphOp.mergeNode (chunkId pid idx)
              (.chunk c (match embd c with
                | some v => v
                | none => List.replicate 1536 0.0) idx)
            :: GraphOp.mergeEdge ⟨chunkId pid (idx - 1), chunkId pid idx, "NEXT"⟩
            :: pcfGo pid embd (idx + 1) rest := by
        simp [pcfGo, hidx, hpos]
      rw [hlist] at he
      rcases List.mem_cons.mp he with hc | he
      · exact absurd hc (by simp)
      rcases List.mem_cons.mp he with hc | he
      · injection hc with hc2
        exact ⟨idx, by rw [hc2]⟩
      · exact ih (idx + 1) e he

theorem contentOpsOf_edge_dst (cfg : LoaderCfg) (nid : NodeId)
    (content : Option String) (e : GEdge)
    (he : GraphOp.mergeEdge e ∈ contentOpsOf cfg nid content) :
    ∃ j, e.dst = chunkId nid j := by
  cases content with
  | none => simp [contentOpsOf] at he
  | some text => exact pcfGo_edge_dst nid cfg.embed (cfg.split text) 0 e he

theorem edgeOpsOf_mem (pid nid : NodeId) (plvl : Option Nat) (level : Nat)
    (e : GEdge) :
    GraphOp.mergeEdge e ∈ edgeOpsOf pid nid plvl level ↔
      e = ⟨pid, nid, "HAS_CHILD"⟩ ∧
        (plvl = none ∨ ∃ pl, plvl = some pl ∧ level = pl + 1) := by
  cases plvl with
  | none =>
    constructor
    · intro h
      injection List.mem_singleton.mp h with h2
      exact ⟨h2, Or.inl rfl⟩
    · rintro ⟨rfl, _⟩
      exact List.mem_singleton.mpr rfl
  | some pl =>
    by_cases hl : level = pl + 1
    · rw [edgeOpsOf, if_pos hl]
      constructor
      · intro h
        injection List.mem_singleton.mp h with h2
        exact ⟨h2, Or.inr ⟨pl, rfl, hl⟩⟩
      · rintro ⟨rfl, _⟩
        exact List.mem_singleton.mpr rfl
    · rw [edgeOpsOf, if_neg hl]
      constructor
      · intro h
        simp at h
      · rintro ⟨rfl, h | ⟨pl2, hpl2, hl2⟩⟩
        · exact Option.noConfusion h
        · injection hpl2 with hpe
          subst hpe
          exact absurd hl2 hl

theorem visitTree_nid_path :
    ∀ (n : Nat) (d : DirTree), sizeOf d ≤ n →
      ∀ (curPath : List String) (pid : NodeId) (plvl : Option Nat) (v : Visit),
        v ∈ visitTree d curPath pid plvl → ∃ segs, v.nid = NodeId.path segs := by
  intro n
  induction n with
  | zero =>
    intro d hd
    cases d with
    | node name content subs =>
      simp only [DirTree.node.sizeOf_spec] at hd
      omega
  | succ n ih =>
    intro d hd curPath pid plvl v hv
    cases d with
    | node name content subs =>
      rcases hp : parseFolderName name with ⟨lv, od, nm, num⟩
      cases lv with
      | none =>
        rw [visitTree_nonconforming _ curPath pid plvl
          (by simp [DirTree.name, hp])] at hv
        simp at hv
      | some level =>
        cases od with
        | none =>
          have hz : visitTree (.node name content subs) curPath pid plvl = [] := by
            rw [visitTree, hp]
          rw [hz] at hv
          simp at hv
        | some order =>
          have hveq : visitTree (.node name content subs) curPath pid plvl =
              ⟨plvl, pid, level, NodeId.path (curPath ++ [name])⟩
                :: visitForest subs (curPath ++ [name])
                  (NodeId.path (curPath ++ [name])) (some level) := by
            rw [visitTree, hp]
          rw [hveq] at hv
          rcases List.mem_cons.mp hv with rfl | hv
          · exact ⟨curPath ++ [name], rfl⟩
          · rcases (mem_visitForest subs _ _ _ v).mp hv with ⟨d2, hd2, hvd⟩
            have hsize : sizeOf d2 ≤ n := by
              have h1 := sizeOf_mem_toList subs d2 hd2
              have h2 := sizeOf_subs_lt name content subs
              simp only [DirTree.node.sizeOf_spec] at hd
              omega
            exact ih d2 hsize _ _ (some level) v hvd

theorem visitForest_nid_path (f : DirForest) (curPath : List String)
    (pid : NodeId) (plvl : Option Nat) (v : Visit)
    (hv : v ∈ visitForest f curPath pid plvl) :
    ∃ segs, v.nid = NodeId.path segs := by
  rcases (mem_visitForest f curPath pid plvl v).mp hv with ⟨d, _, hvd⟩
  exact visitTree_nid_path (sizeOf d) d le_rfl curPath pid plvl v hvd

theorem hasChild_processTree (cfg : LoaderCfg) :
    ∀ (n : Nat) (d : DirTree), sizeOf d ≤ n →
      ∀ (curPath : List String) (pid : NodeId) (plvl : Option Nat)
        (a : NodeId) (segs : List String),
        (GraphOp.mergeEdge ⟨a, NodeId.path segs, "HAS_CHILD"⟩ ∈
            (processTree cfg d curPath pid plvl).1 ↔
          ∃ v, v ∈ visitTree d curPath pid plvl ∧ v.pid = a ∧
            v.nid = NodeId.path segs ∧ directChildCond v) := by
  intro n
  induction n with
  | zero =>
    intro d hd
    cases d with
    | node name content subs =>
      simp only [DirTree.node.sizeOf_spec] at hd
      omega
  | succ n ih =>
    intro d hd curPath pid plvl a segs
    cases d with
    | node name content subs =>
      rcases hp : parseFolderName name with ⟨lv, od, nm, num⟩
      cases lv with
      | none =>
        rw [processTree_nonconforming cfg _ curPath pid plvl
            (by simp [DirTree.name, hp]),
          visitTree_nonconforming _ curPath pid plvl
            (by simp [DirTree.name, hp])]
        simp
      | some level =>
        cases od with
        | none =>
          have hz : processTree cfg (.node name content subs) curPath pid plvl
              = ([], []) := by
            rw [processTree, hp]
          have hvz : visitTree (.node name content subs) curPath pid plvl = [] := by
            rw [visitTree, hp]
          rw [hz, hvz]
          simp
        | some order =>
          rw [processTree_eq_conforming cfg name content subs curPath pid plvl
            level order nm num hp]
          have hveq : visitTree (.node name content subs) curPath pid plvl =
              ⟨plvl, pid, level, NodeId.path (curPath ++ [name])⟩
                :: visitForest subs (curPath ++ [name])
                  (NodeId.path (curPath ++ [name])) (some level) := by
            rw [visitTree, hp]
          rw [hveq]
          have hsub : ∀ d2 ∈ subs.toList, sizeOf d2 ≤ n := by
            intro d2 hd2
            have h1 := sizeOf_mem_toList subs d2 hd2
            have h2 := sizeOf_subs_lt name content subs
            simp only [DirTree.node.sizeOf_spec] at hd
            omega
          constructor
          · intro h
            rcases List.mem_cons.mp h with hc | h
            · exact absurd hc (by simp)
            rcases List.mem_append.mp h with h | hflat
            · rcases List.mem_append.mp h with hedge | hcont
              · rcases (edgeOpsOf_mem _ _ _ _ _).mp hedge with ⟨heq, hcond⟩
                simp only [GEdge.mk.injEq] at heq
                obtain ⟨ha, hdst, -⟩ := heq
                refine ⟨⟨plvl, pid, level, NodeId.path (curPath ++ [name])⟩,
                  List.mem_cons_self _ _, ha.symm, hdst.symm, ?_⟩
                rcases hcond with h0 | ⟨pl, hpl, hlv⟩
                · exact Or.inl h0
                · exact Or.inr ⟨pl, hpl, hlv⟩
              · exfalso
                rcases contentOpsOf_edge_dst cfg _ content _ hcont with ⟨j, hj⟩
                simp [chunkId] at hj
            · rcases List.mem_flatten.mp hflat with ⟨partOps, hpartOps, hin⟩
              rcases List.mem_map.mp hpartOps with ⟨part, hpart, rfl⟩
              rcases mem_processForest cfg subs _ _ _ part
                ((mem_sortParts part _).mp hpart) with ⟨d2, hd2, rfl⟩
              rcases (ih d2 (hsub d2 hd2) _ _ (some level) a segs).mp hin
                with ⟨v, hvd, hvp, hvn, hvc⟩
              refine ⟨v, List.mem_cons_of_mem _ ?_, hvp, hvn, hvc⟩
              exact (mem_visitForest subs _ _ _ v).mpr ⟨d2, hd2, hvd⟩
          · rintro ⟨v, hv, hvp, hvn, hvc⟩
            rcases List.mem_cons.mp hv with rfl | hv
            · refine List.mem_cons_of_mem _
                (List.mem_append.mpr (Or.inl (List.mem_append.mpr (Or.inl ?_))))
              refine (edgeOpsOf_mem _ _ _ _ _).mpr ⟨?_, ?_⟩
              · have h1 : pid = a := hvp
                have h2 : NodeId.path (curPath ++ [name]) = NodeId.path segs := hvn
                rw [← h1, ← h2]
              · rcases hvc with h0 | ⟨pl, hpl, hlv⟩
                · exact Or.inl h0
                · exact Or.inr ⟨pl, hpl, hlv⟩
            · rcases (mem_visitForest subs _ _ _ v).mp hv with ⟨d2, hd2, hvd⟩
              have hin := (ih d2 (hsub d2 hd2) _ _ (some level) a segs).mpr
                ⟨v, hvd, hvp, hvn, hvc⟩
              refine List.mem_cons_of_mem _ (List.mem_append.mpr (Or.inr ?_))
              refine List.mem_flatten.mpr
                ⟨(processTree cfg d2 (curPath ++ [name])
                  (NodeId.path (curPath ++ [name])) (some level)).1, ?_, hin⟩
              refine List.mem_map.mpr
                ⟨(d2.name, processTree cfg d2 (curPath ++ [name])
                  (NodeId.path (curPath ++ [name])) (some level)), ?_, rfl⟩
              exact (mem_sortParts _ _).mpr
                (processForest_mem_of cfg subs _ _ _ d2 hd2)

theorem hasChild_processDirOps (cfg : LoaderCfg) (subs : DirForest)
    (curPath : List String) (pid : NodeId) (plvl : Option Nat)
    (a : NodeId) (segs : List String) :
    GraphOp.mergeEdge ⟨a, NodeId.path segs, "HAS_CHILD"⟩ ∈
        (processDirOps cfg subs curPath pid plvl).1 ↔
      ∃ v, v ∈ visitForest subs curPath pid plvl ∧ v.pid = a ∧
        v.nid = NodeId.path segs ∧ directChildCond v := by
  constructor
  · intro h
    have h2 : GraphOp.mergeEdge ⟨a, NodeId.path segs, "HAS_CHILD"⟩ ∈
        ((sortParts (processForest cfg subs curPath pid plvl)).map
          (fun p => p.2.1)).flatten := h
    rcases List.mem_flatten.mp h2 with ⟨partOps, hpartOps, hin⟩
    rcases List.mem_map.mp hpartOps with ⟨part, hpart, rfl⟩
    rcases mem_processForest cfg subs _ _ _ part
      ((mem_sortParts part _).mp hpart) with ⟨d2, hd2, rfl⟩
    rcases (hasChild_processTree cfg (sizeOf d2) d2 le_rfl curPath pid plvl
      a segs).mp hin with ⟨v, hvd, hvp, hvn, hvc⟩
    exact ⟨v, (mem_visitForest subs _ _ _ v).mpr ⟨d2, hd2, hvd⟩, hvp, hvn, hvc⟩
  · rintro ⟨v, hv, hvp, hvn, hvc⟩
    rcases (mem_visitForest subs _ _ _ v).mp hv with ⟨d2, hd2, hvd⟩
    have hin := (hasChild_processTree cfg (sizeOf d2) d2 le_rfl curPath pid plvl
      a segs).mpr ⟨v, hvd, hvp, hvn, hvc⟩
    show GraphOp.mergeEdge ⟨a, NodeId.path segs, "HAS_CHILD"⟩ ∈
      ((sortParts (processForest cfg subs curPath pid plvl)).map
        (fun p => p.2.1)).flatten
    refine List.mem_flatten.mpr ⟨(processTree cfg d2 curPath pid plvl).1, ?_, hin⟩
    refine List.mem_map.mpr ⟨(d2.name, processTree cfg d2 curPath pid plvl), ?_, rfl⟩
    exact (mem_sortParts _ _).mpr (processForest_mem_of cfg subs _ _ _ d2 hd2)

/-- C4: in a loaded hierarchy, a visited (conforming) directory gets a
`HAS_CHILD` edge from its enclosing parent node if and only if it sits
directly under the document root (`parent_level is None`) or its parsed
level is exactly the parent's level plus one; in particular a directory
whose level skips ahead of its enclosing structural parent by more than
one receives no `HAS_CHILD` edge at all. The visited directories' node
ids are assumed pairwise distinct, as distinct storage paths give
distinct ids. -/
theorem c4_has_child_direct_only (cfg : LoaderCfg) (root : DirTree)
    (vd : Nat) (vf : String) (v : Visit)
    (hv : v ∈ visitForest root.subs [root.name] (NodeId.path [root.name]) none)
    (hnd : ((visitForest root.subs [root.name]
      (NodeId.path [root.name]) none).map Visit.nid).Nodup) :
    GraphOp.mergeEdge ⟨v.pid, v.nid, "HAS_CHILD"⟩ ∈
        createLexicalGraphOps cfg root vd vf ↔ directChildCond v := by
  rcases visitForest_nid_path root.subs [root.name] (NodeId.path [root.name])
    none v hv with ⟨segs, hsegs⟩
  rw [createLexicalGraphOps_eq]
  constructor
  · intro h
    rcases List.mem_cons.mp h with hc | h
    · exact absurd hc (by simp)
    rcases List.mem_cons.mp h with hc | h
    · exact absurd hc (by simp)
    rcases List.mem_append.mp h with h | hsp
    · rcases List.mem_append.mp h with hcont | htrav
      · exfalso
        rcases contentOpsOf_edge_dst cfg _ root.content _ hcont with ⟨j, hj⟩
        have hj2 : v.nid = chunkId (NodeId.path [root.name]) j := hj
        rw [hsegs] at hj2
        simp [chunkId] at hj2
      · rw [hsegs] at htrav
        rcases (hasChild_processDirOps cfg root.subs [root.name] _ none
          v.pid segs).mp htrav with ⟨v2, hv2, hv2p, hv2n, hv2c⟩
        have hveq : v2 = v := by
          refine List.inj_on_of_nodup_map hnd hv2 hv ?_
          rw [hv2n, ← hsegs]
        rw [← hveq]
        exact hv2c
    · exfalso
      rcases secondPass_mem _ _ hsp with ⟨en1, en2, _, _, heq⟩
      injection heq with he
      have ht := congrArg GEdge.typ he
      simp at ht
  · intro hdc
    have hmem := (hasChild_processDirOps cfg root.subs [root.name] _ none
      v.pid segs).mpr ⟨v, hv, rfl, hsegs, hdc⟩
    rw [← hsegs] at hmem
    exact List.mem_cons_of_mem _ (List.mem_cons_of_mem _
      (List.mem_append.mpr (Or.inl (List.mem_append.mpr (Or.inr hmem)))))

theorem c4_has_child_direct_only_witness :
    GraphOp.mergeEdge ⟨NodeId.path ["root"], NodeId.path ["root", "l0-n1-P1"],
        "HAS_CHILD"⟩ ∈
      createLexicalGraphOps sampleCfg threeParentTree 4 "cosine" ↔
    directChildCond ⟨none, NodeId.path ["root"], 0,
      NodeId.path ["root", "l0-n1-P1"]⟩ :=
  c4_has_child_direct_only sampleCfg threeParentTree 4 "cosine"
    ⟨none, NodeId.path ["root"], 0, NodeId.path ["root", "l0-n1-P1"]⟩
    (by decide) (by decide)

end DocsToKG
